import Mathlib

/-!
# Verification of the assignment-store bot core (`src/bot.py`)

A shallow embedding of the assignment store and its presentation logic:

* a model of the `datetime` values the code manipulates (naive local time,
  microsecond precision, proleptic Gregorian calendar), with the fixed-format
  parser used by `add` (`strptime` with `"%Y-%m-%d %H:%M"`), the storage
  text form (`isoformat`/`fromisoformat`) and the three deadline display
  styles of `AssignmentManager.format_deadline`;
* a model of the JSON fragment the store writes (objects, arrays, strings,
  integers, booleans, null) with CPython's `json.dump` text rendering
  (`ensure_ascii` escaping, `", "`/`": "` separators) and a total fuelled
  parser for `json.load`, building objects with Python-dict insertion
  semantics (first position, last value on duplicate keys);
* the store commands `add_assignment`, `list_assignments` and
  `remove_assignment` over an explicit backing-file state.

Machine integers do not overflow here (Python ints are unbounded), so numbers
are `Nat`/`Int`.  Fallible operations return `Option`.
-/

namespace MsuBot

/-! ## Decimal digits and fixed-width numerals -/

def isDigitB (c : Char) : Bool := '0' ≤ c && c ≤ '9'

def digitChar (d : Nat) : Char := Char.ofNat (48 + d)

def digitVal (c : Char) : Nat := c.toNat - 48

/-- Two-digit zero-padded numeral, as `"%02d"` renders `n ≤ 99`. -/
def pad2 (n : Nat) : List Char := [digitChar (n / 10 % 10), digitChar (n % 10)]

/-- Four-digit zero-padded numeral, as `"%04d"` renders `n ≤ 9999`. -/
def pad4 (n : Nat) : List Char :=
  [digitChar (n / 1000 % 10), digitChar (n / 100 % 10),
   digitChar (n / 10 % 10), digitChar (n % 10)]

/-- Six-digit zero-padded numeral, as `"%06d"` renders microseconds. -/
def pad6 (n : Nat) : List Char :=
  [digitChar (n / 100000 % 10), digitChar (n / 10000 % 10),
   digitChar (n / 1000 % 10), digitChar (n / 100 % 10),
   digitChar (n / 10 % 10), digitChar (n % 10)]

def parse2 (c1 c2 : Char) : Option Nat :=
  if isDigitB c1 && isDigitB c2 then some (digitVal c1 * 10 + digitVal c2) else none

def parse4 (c1 c2 c3 c4 : Char) : Option Nat :=
  if isDigitB c1 && isDigitB c2 && isDigitB c3 && isDigitB c4 then
    some (((digitVal c1 * 10 + digitVal c2) * 10 + digitVal c3) * 10 + digitVal c4)
  else none

def parse6 (c1 c2 c3 c4 c5 c6 : Char) : Option Nat :=
  match parse4 c1 c2 c3 c4, parse2 c5 c6 with
  | some hi, some lo => some (hi * 100 + lo)
  | _, _ => none

/-! ## The `datetime` model

Naive local time, as the source stores and compares it (no timezone).
`rataDie` is the civil-calendar day number (days since the era base
0000-03-01, Hinnant's algorithm), so that differences of `toMicro` agree
with `datetime` subtraction. -/

structure DateTime where
  year : Nat
  month : Nat
  day : Nat
  hour : Nat
  minute : Nat
  second : Nat
  microsecond : Nat
deriving DecidableEq, Repr

def isLeapYear (y : Nat) : Bool := (y % 4 == 0 && y % 100 != 0) || y % 400 == 0

def daysInMonth (y m : Nat) : Nat :=
  if m = 2 then (if isLeapYear y then 29 else 28)
  else if m = 4 ∨ m = 6 ∨ m = 9 ∨ m = 11 then 30
  else 31

/-- The range validation `datetime.__new__` performs on its fields. -/
def DateTime.Valid (dt : DateTime) : Prop :=
  1 ≤ dt.year ∧ dt.year ≤ 9999 ∧ 1 ≤ dt.month ∧ dt.month ≤ 12 ∧
  1 ≤ dt.day ∧ dt.day ≤ daysInMonth dt.year dt.month ∧
  dt.hour ≤ 23 ∧ dt.minute ≤ 59 ∧ dt.second ≤ 59 ∧ dt.microsecond ≤ 999999

instance (dt : DateTime) : Decidable dt.Valid := by
  unfold DateTime.Valid; infer_instance

/-- Day number of a civil date, counted from the era base 0000-03-01. -/
def rataDie (y m d : Nat) : Nat :=
  let y' := if m ≤ 2 then y - 1 else y
  let era := y' / 400
  let yoe := y' % 400
  let mp := if 2 < m then m - 3 else m + 9
  let doy := (153 * mp + 2) / 5 + (d - 1)
  let doe := yoe * 365 + yoe / 4 - yoe / 100 + doy
  era * 146097 + doe

def usPerDay : Int := 86400000000

/-- Microseconds since the era base; `datetime` subtraction and comparison
are differences and comparisons of this number. -/
def DateTime.toMicro (dt : DateTime) : Int :=
  (rataDie dt.year dt.month dt.day : Int) * usPerDay
    + dt.hour * 3600000000 + dt.minute * 60000000
    + dt.second * 1000000 + dt.microsecond

/-! ## `isoformat` / `fromisoformat`

`datetime.isoformat()` renders `YYYY-MM-DDTHH:MM:SS`, appending `.ffffff`
exactly when the microsecond field is nonzero; this is the storage form of
`deadline` and `added_at`.  `fromisoformat` parses that shape back (seconds
and fraction optional), validating ranges as the constructor does. -/

def isoChars (dt : DateTime) : List Char :=
  pad4 dt.year ++ '-' :: pad2 dt.month ++ '-' :: pad2 dt.day
    ++ 'T' :: pad2 dt.hour ++ ':' :: pad2 dt.minute ++ ':' :: pad2 dt.second
    ++ (if dt.microsecond = 0 then [] else '.' :: pad6 dt.microsecond)

def isoformat (dt : DateTime) : String := ⟨isoChars dt⟩

def mkValidated (y m d h mi s us : Nat) : Option DateTime :=
  if 1 ≤ y ∧ y ≤ 9999 ∧ 1 ≤ m ∧ m ≤ 12 ∧ 1 ≤ d ∧ d ≤ daysInMonth y m
      ∧ h ≤ 23 ∧ mi ≤ 59 ∧ s ≤ 59 ∧ us ≤ 999999 then
    some ⟨y, m, d, h, mi, s, us⟩
  else none

def fromisoChars (cs : List Char) : Option DateTime :=
  match cs with
  | y1 :: y2 :: y3 :: y4 :: '-' :: m1 :: m2 :: '-' :: d1 :: d2
      :: 'T' :: h1 :: h2 :: ':' :: i1 :: i2 :: rest =>
    match parse4 y1 y2 y3 y4, parse2 m1 m2, parse2 d1 d2, parse2 h1 h2, parse2 i1 i2 with
    | some y, some m, some d, some h, some mi =>
      match rest with
      | [] => mkValidated y m d h mi 0 0
      | ':' :: s1 :: s2 :: rest2 =>
        match parse2 s1 s2 with
        | some s =>
          match rest2 with
          | [] => mkValidated y m d h mi s 0
          | '.' :: u1 :: u2 :: u3 :: u4 :: u5 :: u6 :: [] =>
            match parse6 u1 u2 u3 u4 u5 u6 with
            | some us => mkValidated y m d h mi s us
            | none => none
          | _ => none
        | none => none
      | _ => none
    | _, _, _, _, _ => none
  | _ => none

def fromisoformat (s : String) : Option DateTime := fromisoChars s.data

/-! ## `strptime` with the fixed format `"%Y-%m-%d %H:%M"`

CPython's `_strptime` compiles this format to the regular expression
`\d{4}-(\d\d|\d)-(\d\d|\d) (\d\d|\d):(\d\d|\d)` matched against the whole
string, then validates the fields through the `datetime` constructor.  The
alternation is greedy: a run of digits before a non-digit separator takes
two digits when two are available. -/

/-- One or two digits, maximal munch (`\d\d|\d` against a following
non-digit or the end of input). -/
def takeDigits12 : List Char → Option (Nat × List Char)
  | c1 :: c2 :: rest =>
    if isDigitB c1 then
      if isDigitB c2 then some (digitVal c1 * 10 + digitVal c2, rest)
      else some (digitVal c1, c2 :: rest)
    else none
  | [c1] => if isDigitB c1 then some (digitVal c1, []) else none
  | [] => none

def strptimeChars (cs : List Char) : Option DateTime :=
  match cs with
  | y1 :: y2 :: y3 :: y4 :: '-' :: rest =>
    match parse4 y1 y2 y3 y4 with
    | some y =>
      match takeDigits12 rest with
      | some (m, '-' :: rest2) =>
        match takeDigits12 rest2 with
        | some (d, ' ' :: rest3) =>
          match takeDigits12 rest3 with
          | some (h, ':' :: rest4) =>
            match takeDigits12 rest4 with
            | some (mi, []) => mkValidated y m d h mi 0 0
            | _ => none
          | _ => none
        | _ => none
      | _ => none
    | none => none
  | _ => none

/-- `datetime.strptime(s, "%Y-%m-%d %H:%M")`, `none` for the `ValueError`. -/
def strptime_ymd_hm (s : String) : Option DateTime := strptimeChars s.data

/-! ## `AssignmentManager.format_deadline` -/

inductive TimeFormat where
  | SHORT
  | LONG
  | RELATIVE
deriving DecidableEq, Repr

def weekdayNames : List String :=
  ["Monday", "Tuesday", "Wednesday", "Thursday", "Friday", "Saturday", "Sunday"]

def monthNames : List String :=
  ["January", "February", "March", "April", "May", "June", "July",
   "August", "September", "October", "November", "December"]

/-- `%A`: 0000-03-01 (rata die 0) was a Wednesday. -/
def weekdayName (dt : DateTime) : String :=
  weekdayNames.getD ((rataDie dt.year dt.month dt.day + 2) % 7) ""

/-- `deadline.strftime("%Y-%m-%d %H:%M")`. -/
def strftimeShort (dt : DateTime) : String :=
  ⟨pad4 dt.year ++ '-' :: pad2 dt.month ++ '-' :: pad2 dt.day
    ++ ' ' :: pad2 dt.hour ++ ':' :: pad2 dt.minute⟩

/-- `deadline.strftime("%A, %B %d %Y at %H:%M")`. -/
def strftimeLong (dt : DateTime) : String :=
  weekdayName dt ++ ", " ++ monthNames.getD (dt.month - 1) "" ++ " "
    ++ ⟨pad2 dt.day⟩ ++ " " ++ ⟨pad4 dt.year⟩ ++ " at "
    ++ ⟨pad2 dt.hour⟩ ++ ":" ++ ⟨pad2 dt.minute⟩

/-- The body of `format_deadline` after `datetime.fromisoformat` succeeded.
A Python `timedelta` normalizes to `days`/`seconds`/`microseconds` with
`0 ≤ seconds < 86400`, so its `days` attribute is the floor division
`Int.fdiv` of the microsecond delta by a day. -/
def format_deadline_parsed (deadline : DateTime) (style : TimeFormat)
    (now : DateTime) : String :=
  match style with
  | .SHORT => strftimeShort deadline
  | .LONG => strftimeLong deadline
  | .RELATIVE =>
    let delta : Int := deadline.toMicro - now.toMicro
    if delta < 0 then s!"{(delta.fdiv usPerDay).natAbs} days ago"
    else if delta < usPerDay then "Today"
    else if delta < 2 * usPerDay then "Tomorrow"
    else s!"In {delta.fdiv usPerDay} days"

/-- `AssignmentManager.format_deadline`; `none` models the exception
`datetime.fromisoformat` raises on an unparsable string.  The wall clock
read by the `RELATIVE` branch is passed explicitly. -/
def format_deadline (deadline_str : String) (style : TimeFormat)
    (now : DateTime) : Option String :=
  match fromisoformat deadline_str with
  | none => none
  | some deadline => some (format_deadline_parsed deadline style now)

/-! ## The JSON fragment the store reads and writes

The mapping persists as one JSON object whose values are objects with
string and integer fields, so the model covers JSON objects, arrays,
strings, integers, booleans and null (floats never occur in the store's
output; a float in the file is treated as unparsable).  `dumpVal` renders
as CPython's `json.dump` does with default options: `", "`/`": "`
separators and `ensure_ascii` escaping (`\uXXXX`, surrogate pairs beyond
the basic plane).  The parser models `json.load`: total via fuel,
objects built with Python-dict insertion semantics, so duplicate keys
keep the first position and the last value. -/

inductive JVal where
  | jnull
  | jbool (b : Bool)
  | jint (n : Int)
  | jstr (s : String)
  | jarr (elems : List JVal)
  | jobj (fields : List (String × JVal))
deriving Repr

/-! ### Python dict primitives (insertion-ordered association lists) -/

/-- `d[k] = v`: replace in place when the key exists, append otherwise. -/
def pyDictInsert {α : Type} : List (String × α) → String → α → List (String × α)
  | [], k, v => [(k, v)]
  | (k', v') :: tl, k, v =>
    if k' = k then (k', v) :: tl else (k', v') :: pyDictInsert tl k v

def pyDictLookup {α : Type} : List (String × α) → String → Option α
  | [], _ => none
  | (k', v') :: tl, k => if k' = k then some v' else pyDictLookup tl k

/-- `k in d`. -/
def pyDictContains {α : Type} (m : List (String × α)) (k : String) : Bool :=
  (pyDictLookup m k).isSome

/-- `del d[k]` (the key is unique in any dict the code builds). -/
def pyDictDel {α : Type} : List (String × α) → String → List (String × α)
  | [], _ => []
  | (k', v') :: tl, k => if k' = k then tl else (k', v') :: pyDictDel tl k

/-- `dict(pairs)`: fold the pairs through item assignment. -/
def dictFromPairs (pairs : List (String × JVal)) : List (String × JVal) :=
  pairs.foldl (fun acc kv => pyDictInsert acc kv.1 kv.2) []

def countKey {α : Type} (m : List (String × α)) (k : String) : Nat :=
  (m.map Prod.fst).count k

def KeysUnique {α : Type} (m : List (String × α)) : Prop :=
  (m.map Prod.fst).Nodup

/-- Python truthiness of a JSON value (`if not assignments:`). -/
def pyFalsy : JVal → Bool
  | .jnull => true
  | .jbool b => !b
  | .jint n => n == 0
  | .jstr s => s.isEmpty
  | .jarr es => es.isEmpty
  | .jobj ms => ms.isEmpty

/-! ### Rendering (`json.dump` with default options) -/

def toHex (d : Nat) : Char :=
  if d < 10 then Char.ofNat (48 + d) else Char.ofNat (87 + d)

/-- `\uXXXX` for `n ≤ 0xffff`, lowercase hex as `"%04x"` renders it. -/
def uEscape (n : Nat) : List Char :=
  ['\\', 'u', toHex (n / 4096 % 16), toHex (n / 256 % 16),
   toHex (n / 16 % 16), toHex (n % 16)]

/-- One character as `json.dump` emits it under `ensure_ascii`: the seven
shorthand escapes, printable ASCII raw, everything else `\uXXXX` (a
surrogate pair above the basic plane). -/
def escapeChar (c : Char) : List Char :=
  if c = '"' then ['\\', '"']
  else if c = '\\' then ['\\', '\\']
  else if c = '\x08' then ['\\', 'b']
  else if c = '\x0c' then ['\\', 'f']
  else if c = '\n' then ['\\', 'n']
  else if c = '\r' then ['\\', 'r']
  else if c = '\t' then ['\\', 't']
  else if 0x20 ≤ c.toNat ∧ c.toNat ≤ 0x7e then [c]
  else if c.toNat < 0x10000 then uEscape c.toNat
  else uEscape (0xd800 + (c.toNat - 0x10000) / 0x400)
        ++ uEscape (0xdc00 + (c.toNat - 0x10000) % 0x400)

def escapeList : List Char → List Char
  | [] => []
  | c :: cs => escapeChar c ++ escapeList cs

def dumpStr (s : String) : List Char := '"' :: (escapeList s.data ++ ['"'])

/-- Decimal digits of `n`, most significant first, no leading zeros. -/
def natChars (n : Nat) : List Char :=
  if n < 10 then [digitChar n]
  else natChars (n / 10) ++ [digitChar (n % 10)]
termination_by n
decreasing_by omega

/-- `repr` of a Python integer: optional minus sign, then digits. -/
def intChars (i : Int) : List Char :=
  (if i < 0 then ['-'] else []) ++ natChars i.natAbs

mutual
def dumpVal : JVal → List Char
  | .jnull => ['n', 'u', 'l', 'l']
  | .jbool true => ['t', 'r', 'u', 'e']
  | .jbool false => ['f', 'a', 'l', 's', 'e']
  | .jint n => intChars n
  | .jstr s => dumpStr s
  | .jarr es => '[' :: (dumpElems es ++ [']'])
  | .jobj ms => '\x7b' :: (dumpMembers ms ++ ['\x7d'])
def dumpElems : List JVal → List Char
  | [] => []
  | e :: es => dumpVal e ++ dumpElemsSep es
def dumpElemsSep : List JVal → List Char
  | [] => []
  | e :: es => ',' :: ' ' :: (dumpVal e ++ dumpElemsSep es)
def dumpMembers : List (String × JVal) → List Char
  | [] => []
  | (k, v) :: ms => dumpStr k ++ ':' :: ' ' :: (dumpVal v ++ dumpMembersSep ms)
def dumpMembersSep : List (String × JVal) → List Char
  | [] => []
  | (k, v) :: ms => ',' :: ' ' :: (dumpStr k ++ ':' :: ' ' :: (dumpVal v ++ dumpMembersSep ms))
end

def json_dumps (v : JVal) : String := ⟨dumpVal v⟩

/-! ### Parsing (`json.load`) -/

def isWsB (c : Char) : Bool := c == ' ' || c == '\t' || c == '\n' || c == '\r'

def skipWs : List Char → List Char
  | c :: cs => if isWsB c then skipWs cs else c :: cs
  | [] => []

def parseHex (c : Char) : Option Nat :=
  if '0' ≤ c && c ≤ '9' then some (c.toNat - 48)
  else if 'a' ≤ c && c ≤ 'f' then some (c.toNat - 87)
  else if 'A' ≤ c && c ≤ 'F' then some (c.toNat - 55)
  else none

def parseHex4 (a b c d : Char) : Option Nat :=
  match parseHex a, parseHex b, parseHex c, parseHex d with
  | some va, some vb, some vc, some vd => some (((va * 16 + vb) * 16 + vc) * 16 + vd)
  | _, _, _, _ => none

def unescapeChar : Char → Option Char
  | '"' => some '"'
  | '\\' => some '\\'
  | '/' => some '/'
  | 'b' => some '\x08'
  | 'f' => some '\x0c'
  | 'n' => some '\n'
  | 'r' => some '\r'
  | 't' => some '\t'
  | _ => none

/-- The four hex digits of a `\uXXXX` escape completing a surrogate pair
with a low surrogate. -/
def parseLowSurrogate : List Char → Option (Nat × List Char)
  | '\\' :: 'u' :: a :: b :: c :: d :: rest =>
    (parseHex4 a b c d).bind (fun n2 =>
      if 0xdc00 ≤ n2 ∧ n2 ≤ 0xdfff then some (n2, rest) else none)
  | _ => none

/-- Decode one `\uXXXX` escape whose digits carried `n`: a high surrogate
must be completed by a low one (a lone surrogate cannot inhabit a
scalar-value string), anything else is the scalar itself. -/
def escapedOfHex (n : Nat) (rest : List Char) : Option (Char × List Char) :=
  if 0xd800 ≤ n ∧ n ≤ 0xdbff then
    (parseLowSurrogate rest).map (fun p =>
      (Char.ofNat (0x10000 + (n - 0xd800) * 0x400 + (p.1 - 0xdc00)), p.2))
  else if 0xdc00 ≤ n ∧ n ≤ 0xdfff then none
  else some (Char.ofNat n, rest)

/-- What follows a backslash inside a string: `\uXXXX`, or one of the
eight one-letter escapes. -/
def parseEscape : List Char → Option (Char × List Char)
  | 'u' :: a :: b :: c :: d :: rest =>
    (parseHex4 a b c d).bind (fun n => escapedOfHex n rest)
  | e :: rest => (unescapeChar e).map (fun ch => (ch, rest))
  | [] => none

/-- String body after the opening quote, strict mode: raw control
characters are rejected, escapes go through `parseEscape`.  Fuel makes
the recursion structural; one unit covers one produced character, so
`length + 1` units always suffice. -/
def parseJStrAux : Nat → List Char → List Char → Option (String × List Char)
  | 0, _, _ => none
  | fuel + 1, acc, cs =>
    match cs with
    | [] => none
    | c :: rest =>
      if c = '"' then some (⟨acc.reverse⟩, rest)
      else if c = '\\' then
        (parseEscape rest).bind (fun p => parseJStrAux fuel (p.1 :: acc) p.2)
      else if 0x20 ≤ c.toNat then parseJStrAux fuel (c :: acc) rest
      else none

def parseJStr (cs : List Char) : Option (String × List Char) :=
  parseJStrAux (cs.length + 1) [] cs

def takeDigitsRun : List Char → List Char × List Char
  | c :: cs =>
    if isDigitB c then
      let (ds, r) := takeDigitsRun cs
      (c :: ds, r)
    else ([], c :: cs)
  | [] => ([], [])

def digitsToNat (ds : List Char) : Nat := ds.foldl (fun a c => a * 10 + digitVal c) 0

/-- An unsigned integer token: a nonempty digit run, no leading zero
(`0|[1-9]\d*`, the integer part of the scanner's number grammar). -/
def parseUIntTok (cs : List Char) : Option (Nat × List Char) :=
  match takeDigitsRun cs with
  | ([], _) => none
  | (ds, r) =>
    if 1 < ds.length ∧ ds.head? = some '0' then none else some (digitsToNat ds, r)

def parseIntTok (cs : List Char) : Option (Int × List Char) :=
  if cs.head? = some '-' then
    (parseUIntTok cs.tail).map (fun p => (-(p.1 : Int), p.2))
  else
    (parseUIntTok cs).map (fun p => ((p.1 : Int), p.2))

mutual
def parseVal (fuel : Nat) (cs : List Char) : Option (JVal × List Char) :=
  match fuel with
  | 0 => none
  | fuel + 1 =>
    match skipWs cs with
    | 'n' :: 'u' :: 'l' :: 'l' :: r => some (.jnull, r)
    | 't' :: 'r' :: 'u' :: 'e' :: r => some (.jbool true, r)
    | 'f' :: 'a' :: 'l' :: 's' :: 'e' :: r => some (.jbool false, r)
    | '"' :: r => (parseJStr r).map (fun p => (JVal.jstr p.1, p.2))
    | '[' :: r =>
      match skipWs r with
      | ']' :: r2 => some (.jarr [], r2)
      | cs2 => (parseElems fuel cs2).map (fun p => (JVal.jarr p.1, p.2))
    | '\x7b' :: r =>
      match skipWs r with
      | '\x7d' :: r2 => some (.jobj [], r2)
      | cs2 => (parseMembers fuel cs2).map (fun p => (JVal.jobj (dictFromPairs p.1), p.2))
    | cs2 => (parseIntTok cs2).map (fun p => (JVal.jint p.1, p.2))
def parseElems (fuel : Nat) (cs : List Char) : Option (List JVal × List Char) :=
  match fuel with
  | 0 => none
  | fuel + 1 =>
    match parseVal fuel cs with
    | none => none
    | some (v, r) =>
      match skipWs r with
      | ',' :: r2 =>
        (parseElems fuel r2).map (fun p => (v :: p.1, p.2))
      | ']' :: r2 => some ([v], r2)
      | _ => none
def parseMembers (fuel : Nat) (cs : List Char) :
    Option (List (String × JVal) × List Char) :=
  match fuel with
  | 0 => none
  | fuel + 1 =>
    match skipWs cs with
    | '"' :: r =>
      match parseJStr r with
      | none => none
      | some (k, r1) =>
        match skipWs r1 with
        | ':' :: r2 =>
          match parseVal fuel r2 with
          | none => none
          | some (v, r3) =>
            match skipWs r3 with
            | ',' :: r4 =>
              (parseMembers fuel r4).map (fun p => ((k, v) :: p.1, p.2))
            | '\x7d' :: r4 => some ([(k, v)], r4)
            | _ => none
        | _ => none
    | _ => none
end

/-- `json.loads`/`json.load`: one document, then only trailing whitespace;
`none` for the `JSONDecodeError`. -/
def json_loads (s : String) : Option JVal :=
  match parseVal (s.data.length + 1) s.data with
  | some (v, rest) => if (skipWs rest).isEmpty then some v else none
  | none => none

/-! ## The store (`AssignmentManager` and the command handlers)

The backing file is explicit state: absent, or present with text content.
Directory creation (`ensure_data_dir`) is filesystem plumbing outside the
model. -/

inductive FileState where
  | absent
  | present (content : String)
deriving Repr, DecidableEq

/-- `AssignmentManager.load_assignments`: missing file or undecodable
content give an empty dict; otherwise the decoded document is returned
as is, whatever its shape. -/
def load_assignments (fs : FileState) : JVal :=
  match fs with
  | .absent => .jobj []
  | .present content =>
    match json_loads content with
    | some v => v
    | none => .jobj []

/-- `AssignmentManager.save_assignments`: serialize the full mapping over
the file. -/
def save_assignments (data : JVal) : FileState := .present (json_dumps data)

/-- The typed record the spec's data model describes; `add` stores its
JSON encoding. -/
structure Assignment where
  deadline : DateTime
  details : String
  priority : Int
  added_by : Int
  added_at : DateTime
deriving Repr, DecidableEq

def encodeAssignment (a : Assignment) : JVal :=
  .jobj [("deadline", .jstr (isoformat a.deadline)),
         ("details", .jstr a.details),
         ("priority", .jint a.priority),
         ("added_by", .jint a.added_by),
         ("added_at", .jstr (isoformat a.added_at))]

def encodeMapping (m : List (String × Assignment)) : JVal :=
  .jobj (m.map (fun kv => (kv.1, encodeAssignment kv.2)))

/-- The record `add_assignment` constructs and stores under `name`. -/
def mkRecord (deadline_date : DateTime) (details : Option String)
    (priority : Int) (user_id : Int) (now : DateTime) : JVal :=
  .jobj [("deadline", .jstr (isoformat deadline_date)),
         ("details", .jstr (details.getD "")),
         ("priority", .jint (min (max 1 priority) 5)),
         ("added_by", .jint user_id),
         ("added_at", .jstr (isoformat now))]

inductive AddResult where
  | ok (newFile : FileState) (stored : JVal)
  | invalidDeadline
  | typeError
deriving Repr

/-- The `/assignment_add` handler: parse the deadline first (`ValueError`
is the `invalidDeadline` reply), then load, clamp, insert under `name`
and save.  `typeError` is the uncaught item assignment on a non-dict
loaded from a corrupt file. -/
def add_assignment (fs : FileState) (name deadline : String)
    (details : Option String) (priority : Int) (user_id : Int)
    (now : DateTime) : AddResult :=
  match strptime_ymd_hm deadline with
  | none => .invalidDeadline
  | some deadline_date =>
    match load_assignments fs with
    | .jobj assignments =>
      let record := mkRecord deadline_date details priority user_id now
      .ok (save_assignments (.jobj (pyDictInsert assignments name record))) record
    | _ => .typeError

/-! ### `/assignment_list` -/

abbrev Entry := String × JVal × DateTime

def deadlineLE (a b : Entry) : Prop := a.2.2.toMicro ≤ b.2.2.toMicro

instance : DecidableRel deadlineLE := fun a b => Int.decLe _ _

instance : IsTotal Entry deadlineLE := ⟨fun _ _ => Int.le_total _ _⟩

instance : IsTrans Entry deadlineLE := ⟨fun _ _ _ => Int.le_trans⟩

/-- `list.sort(key=lambda x: x[2])`: the stable ascending sort by
deadline (any stable sort under the same key is extensionally this
one). -/
def sortByDeadline (l : List Entry) : List Entry := l.insertionSort deadlineLE

/-- `datetime.fromisoformat(data["deadline"])`: `none` models the
uncaught `KeyError`/`TypeError`/`ValueError` on a malformed record. -/
def extractDeadline (data : JVal) : Option DateTime :=
  match data with
  | .jobj fields =>
    match pyDictLookup fields "deadline" with
    | some (.jstr s) => fromisoformat s
    | _ => none
  | _ => none

/-- The partition loop and the two sorts of `list_assignments`. -/
def partitionAndSort (entries : List Entry) (now : DateTime) :
    List Entry × List Entry :=
  let upcoming := entries.filter (fun e => decide (now.toMicro ≤ e.2.2.toMicro))
  let past := entries.filter (fun e => decide (e.2.2.toMicro < now.toMicro))
  (sortByDeadline upcoming, sortByDeadline past)

/-- `lst[:stop]`: Python slicing with an integer stop, where a negative
stop counts from the end. -/
def pySliceTo {α : Type} (l : List α) (stop : Int) : List α :=
  if 0 ≤ stop then l.take stop.toNat else l.take ((l.length : Int) + stop).toNat

/-- The concatenation and truncation step of `list_assignments`
(`upcoming + (past if show_all else [])`, then `[:limit]`). -/
def renderList (upcoming past : List Entry) (show_all : Bool) (limit : Int) :
    List Entry :=
  pySliceTo (upcoming ++ (if show_all then past else [])) limit

/-- The `/assignment_list` handler: the entries it displays, in order
(`some []` for the two early-return replies that show no list); `none`
models the uncaught exception on a malformed record. -/
def list_assignments (fs : FileState) (now : DateTime) (show_all : Bool)
    (limit : Int) : Option (List Entry) :=
  let assignments := load_assignments fs
  if pyFalsy assignments then some [] else
  match assignments with
  | .jobj m =>
    match m.mapM (fun kv => (extractDeadline kv.2).map (fun d => (kv.1, kv.2, d))) with
    | none => none
    | some entries =>
      let (upcoming, past) := partitionAndSort entries now
      let toShow := upcoming ++ (if show_all then past else [])
      if toShow.isEmpty then some [] else some (pySliceTo toShow limit)
  | _ => none

/-! ### `/assignment_remove` -/

/-- The store-level removal the spec describes: delete if present,
report whether the name existed. -/
def remove_assignment (m : List (String × JVal)) (name : String) :
    List (String × JVal) × Bool :=
  if pyDictContains m name then (pyDictDel m name, true) else (m, false)

inductive RemoveResult where
  | removed (newFile : FileState)
  | notFound
deriving Repr

/-- The `/assignment_remove` handler: delete and save when the name is
present, otherwise reply not-found without touching the file.  (A
corrupt non-dict load cannot contain the name as a key, so it takes the
not-found path.) -/
def remove_command (fs : FileState) (name : String) : RemoveResult :=
  match load_assignments fs with
  | .jobj assignments =>
    if pyDictContains assignments name then
      .removed (save_assignments (.jobj (pyDictDel assignments name)))
    else .notFound
  | _ => .notFound

/-! ## Lemmas: decimal digits -/

theorem digitVal_digitChar {d : Nat} (h : d < 10) : digitVal (digitChar d) = d := by
  interval_cases d <;> decide

theorem isDigitB_digitChar {d : Nat} (h : d < 10) : isDigitB (digitChar d) = true := by
  interval_cases d <;> decide

theorem parse2_pad (n : Nat) :
    parse2 (digitChar (n / 10 % 10)) (digitChar (n % 10)) = some (n % 100) := by
  have m1 : n / 10 % 10 < 10 := Nat.mod_lt _ (by omega)
  have m2 : n % 10 < 10 := Nat.mod_lt _ (by omega)
  simp [parse2, isDigitB_digitChar m1, isDigitB_digitChar m2,
    digitVal_digitChar m1, digitVal_digitChar m2]
  omega

theorem parse2_pad_le {n : Nat} (h : n ≤ 99) :
    parse2 (digitChar (n / 10 % 10)) (digitChar (n % 10)) = some n := by
  rw [parse2_pad, Nat.mod_eq_of_lt (by omega)]

theorem parse4_pad {n : Nat} (h : n ≤ 9999) :
    parse4 (digitChar (n / 1000 % 10)) (digitChar (n / 100 % 10))
      (digitChar (n / 10 % 10)) (digitChar (n % 10)) = some n := by
  have m1 : n / 1000 % 10 < 10 := Nat.mod_lt _ (by omega)
  have m2 : n / 100 % 10 < 10 := Nat.mod_lt _ (by omega)
  have m3 : n / 10 % 10 < 10 := Nat.mod_lt _ (by omega)
  have m4 : n % 10 < 10 := Nat.mod_lt _ (by omega)
  simp [parse4, isDigitB_digitChar m1, isDigitB_digitChar m2, isDigitB_digitChar m3,
    isDigitB_digitChar m4, digitVal_digitChar m1, digitVal_digitChar m2,
    digitVal_digitChar m3, digitVal_digitChar m4]
  omega

theorem parse6_pad {n : Nat} (h : n ≤ 999999) :
    parse6 (digitChar (n / 100000 % 10)) (digitChar (n / 10000 % 10))
      (digitChar (n / 1000 % 10)) (digitChar (n / 100 % 10))
      (digitChar (n / 10 % 10)) (digitChar (n % 10)) = some n := by
  have e4 : parse4 (digitChar (n / 100000 % 10)) (digitChar (n / 10000 % 10))
      (digitChar (n / 1000 % 10)) (digitChar (n / 100 % 10)) = some (n / 100) := by
    have : n / 100 ≤ 9999 := by omega
    have := parse4_pad this
    have q1 : n / 100 / 1000 % 10 = n / 100000 % 10 := by omega
    have q2 : n / 100 / 100 % 10 = n / 10000 % 10 := by omega
    have q3 : n / 100 / 10 % 10 = n / 1000 % 10 := by omega
    have q4 : n / 100 % 10 = n / 100 % 10 := rfl
    rw [q1, q2, q3] at this
    exact this
  rw [parse6, e4, parse2_pad]
  have : n / 100 * 100 + n % 100 = n := by omega
  simp [this]

/-! ## Lemmas: the `isoformat` round trip -/

theorem daysInMonth_le (y m : Nat) : daysInMonth y m ≤ 31 := by
  unfold daysInMonth
  split
  · split <;> omega
  · split <;> omega

theorem fromiso_iso {dt : DateTime} (h : dt.Valid) :
    fromisoformat (isoformat dt) = some dt := by
  obtain ⟨y, m, d, hh, mi, s, us⟩ := dt
  obtain ⟨h1, h2, h3, h4, h5, h6, h7, h8, h9, h10⟩ := h
  simp only at h1 h2 h3 h4 h5 h6 h7 h8 h9 h10
  by_cases hus : us = 0
  · subst hus
    show fromisoChars (isoChars _) = _
    simp only [isoChars, pad4, pad2, pad6, if_pos rfl]
    simp only [List.cons_append, List.nil_append, fromisoChars]
    rw [parse4_pad h2, parse2_pad_le (show m ≤ 99 by omega),
      parse2_pad_le (show d ≤ 99 by have := daysInMonth_le y m; omega), parse2_pad_le (show hh ≤ 99 by omega),
      parse2_pad_le (show mi ≤ 99 by omega)]
    simp only [parse2_pad_le (show s ≤ 99 by omega)]
    simp [mkValidated, h1, h2, h3, h4, h5, h6, h7, h8, h9]
  · show fromisoChars (isoChars _) = _
    simp only [isoChars, pad4, pad2, pad6, if_neg hus]
    simp only [List.cons_append, List.nil_append, fromisoChars]
    rw [parse4_pad h2, parse2_pad_le (show m ≤ 99 by omega),
      parse2_pad_le (show d ≤ 99 by have := daysInMonth_le y m; omega), parse2_pad_le (show hh ≤ 99 by omega),
      parse2_pad_le (show mi ≤ 99 by omega)]
    simp only [parse2_pad_le (show s ≤ 99 by omega)]
    simp only [parse6_pad h10]
    simp [mkValidated, h1, h2, h3, h4, h5, h6, h7, h8, h9, h10]

/-! ## Lemmas: the integer token round trip -/

theorem natChars_digits (n : Nat) : ∀ c ∈ natChars n, isDigitB c = true := by
  induction n using Nat.strong_induction_on with
  | _ n ih =>
    rw [natChars]
    by_cases h : n < 10
    · simp only [if_pos h, List.mem_singleton]
      rintro c rfl
      exact isDigitB_digitChar h
    · simp only [if_neg h, List.mem_append, List.mem_singleton]
      rintro c (hc | rfl)
      · exact ih (n / 10) (by omega) c hc
      · exact isDigitB_digitChar (Nat.mod_lt _ (by omega))

theorem natChars_ne_nil (n : Nat) : natChars n ≠ [] := by
  rw [natChars]
  split <;> simp

theorem natChars_head_pos {n : Nat} (h : n ≠ 0) :
    ∀ c, (natChars n).head? = some c → c ≠ '0' := by
  induction n using Nat.strong_induction_on with
  | _ n ih =>
    rw [natChars]
    by_cases h10 : n < 10
    · simp only [if_pos h10, List.head?_cons, Option.some.injEq]
      rintro c rfl
      intro hc
      have hv := digitVal_digitChar h10
      rw [hc] at hv
      simp [digitVal] at hv
      omega
    · simp only [if_neg h10]
      intro c hc
      rcases he : natChars (n / 10) with _ | ⟨c0, t0⟩
      · exact absurd he (natChars_ne_nil _)
      · rw [he] at hc
        simp only [List.cons_append, List.head?_cons, Option.some.injEq] at hc
        rw [← hc]
        refine ih (n / 10) (by omega) (by omega) c0 ?_
        rw [he, List.head?_cons]

theorem digitsToNat_natChars (n : Nat) : digitsToNat (natChars n) = n := by
  induction n using Nat.strong_induction_on with
  | _ n ih =>
    rw [natChars]
    by_cases h : n < 10
    · simp [digitsToNat, if_pos h, digitVal_digitChar h]
    · simp only [if_neg h, digitsToNat, List.foldl_append, List.foldl_cons, List.foldl_nil]
      have := ih (n / 10) (by omega)
      rw [digitsToNat] at this
      rw [this, digitVal_digitChar (show n % 10 < 10 from Nat.mod_lt _ (by omega))]
      omega

theorem takeDigitsRun_stop {cs : List Char}
    (h : ∀ c, cs.head? = some c → isDigitB c = false) :
    takeDigitsRun cs = ([], cs) := by
  cases cs with
  | nil => rfl
  | cons c t => simp [takeDigitsRun, h c rfl]

theorem takeDigitsRun_append (ds : List Char) (hds : ∀ c ∈ ds, isDigitB c = true)
    (rest : List Char) (hrest : takeDigitsRun rest = ([], rest)) :
    takeDigitsRun (ds ++ rest) = (ds, rest) := by
  induction ds with
  | nil => simpa using hrest
  | cons c t ih =>
    have hc : isDigitB c = true := hds c (by simp)
    have ht := ih (fun x hx => hds x (by simp [hx]))
    simp [takeDigitsRun, hc, ht]

/-- A remainder that cannot extend a digit run: empty or headed by a
non-digit. -/
def digitDelim : List Char → Bool
  | [] => true
  | c :: _ => !isDigitB c

theorem takeDigitsRun_stop_of_delim {cs : List Char} (h : digitDelim cs = true) :
    takeDigitsRun cs = ([], cs) := by
  refine takeDigitsRun_stop ?_
  intro c hc
  cases cs with
  | nil => simp at hc
  | cons c0 t =>
    simp only [List.head?_cons, Option.some.injEq] at hc
    subst hc
    simpa [digitDelim] using h

theorem parseUIntTok_natChars (n : Nat) (rest : List Char)
    (hrest : digitDelim rest = true) :
    parseUIntTok (natChars n ++ rest) = some (n, rest) := by
  have hrun := takeDigitsRun_append (natChars n) (natChars_digits n) rest
    (takeDigitsRun_stop_of_delim hrest)
  rcases he : natChars n with _ | ⟨c0, t0⟩
  · exact absurd he (natChars_ne_nil _)
  · rw [he] at hrun
    simp only [List.cons_append] at hrun
    simp only [List.cons_append, parseUIntTok, hrun]
    have hlz : ¬(1 < (c0 :: t0).length ∧ (c0 :: t0).head? = some '0') := by
      rintro ⟨hlen, hhd⟩
      simp only [List.head?_cons, Option.some.injEq] at hhd
      have hne : n ≠ 0 := by
        rintro rfl
        rw [show natChars 0 = ['0'] by rw [natChars]; decide] at he
        cases he
        simp at hlen
      exact natChars_head_pos hne c0 (by rw [he, List.head?_cons]) hhd
    rw [if_neg hlz]
    have := digitsToNat_natChars n
    rw [he] at this
    rw [this]

theorem natChars_head_digit (n : Nat) :
    ∃ c t, natChars n = c :: t ∧ isDigitB c = true := by
  rcases he : natChars n with _ | ⟨c, t⟩
  · exact absurd he (natChars_ne_nil _)
  · exact ⟨c, t, rfl, natChars_digits n c (by rw [he]; simp)⟩

theorem parseIntTok_intChars (i : Int) (rest : List Char)
    (hrest : digitDelim rest = true) :
    parseIntTok (intChars i ++ rest) = some (i, rest) := by
  obtain ⟨c0, t0, he, hc0⟩ := natChars_head_digit i.natAbs
  by_cases hi : i < 0
  · have harg : intChars i ++ rest = '-' :: (natChars i.natAbs ++ rest) := by
      simp [intChars, hi]
    rw [harg, parseIntTok, if_pos (by simp)]
    simp only [List.tail_cons]
    rw [parseUIntTok_natChars _ _ hrest]
    show some ((-(i.natAbs : Int) : Int), rest) = some (i, rest)
    rw [show -((i.natAbs : Int)) = i by omega]
  · have hm : c0 ≠ '-' := by
      rintro rfl
      exact absurd hc0 (by decide)
    have harg : intChars i ++ rest = c0 :: (t0 ++ rest) := by
      simp [intChars, hi, he]
    rw [harg, parseIntTok]
    rw [if_neg (by simp [hm])]
    have hback : c0 :: (t0 ++ rest) = natChars i.natAbs ++ rest := by
      rw [he, List.cons_append]
    rw [hback, parseUIntTok_natChars _ _ hrest]
    show some (((i.natAbs : Int) : Int), rest) = some (i, rest)
    rw [show ((i.natAbs : Int)) = i by omega]

/-! ## Lemmas: the string escape round trip -/

theorem parseHex_toHex {d : Nat} (h : d < 16) : parseHex (toHex d) = some d := by
  interval_cases d <;> decide

theorem charValidNat (c : Char) :
    c.toNat < 0xd800 ∨ (0xdfff < c.toNat ∧ c.toNat < 0x110000) := c.valid

theorem parseHex4_uhex {n : Nat} (h : n ≤ 0xffff) :
    parseHex4 (toHex (n / 4096 % 16)) (toHex (n / 256 % 16))
      (toHex (n / 16 % 16)) (toHex (n % 16)) = some n := by
  have m1 : n / 4096 % 16 < 16 := Nat.mod_lt _ (by omega)
  have m2 : n / 256 % 16 < 16 := Nat.mod_lt _ (by omega)
  have m3 : n / 16 % 16 < 16 := Nat.mod_lt _ (by omega)
  have m4 : n % 16 < 16 := Nat.mod_lt _ (by omega)
  rw [parseHex4, parseHex_toHex m1, parseHex_toHex m2, parseHex_toHex m3,
    parseHex_toHex m4]
  have : ((n / 4096 % 16 * 16 + n / 256 % 16) * 16 + n / 16 % 16) * 16 + n % 16 = n := by
    omega
  exact congrArg some this

theorem opt_some_bind {α β : Type} (a : α) (f : α → Option β) :
    (some a).bind f = f a := rfl

theorem opt_map_some {α β : Type} (a : α) (f : α → β) :
    (some a).map f = some (f a) := rfl

theorem parseLowSurrogate_cons (a b c d : Char) (rest : List Char) :
    parseLowSurrogate ('\\' :: 'u' :: a :: b :: c :: d :: rest)
      = (parseHex4 a b c d).bind (fun n2 =>
          if 0xdc00 ≤ n2 ∧ n2 ≤ 0xdfff then some (n2, rest) else none) := rfl

theorem parseEscape_u (a b c d : Char) (rest : List Char) :
    parseEscape ('u' :: a :: b :: c :: d :: rest)
      = (parseHex4 a b c d).bind (fun n => escapedOfHex n rest) := rfl

theorem parseJStrAux_succ_cons (fuel : Nat) (acc : List Char) (c : Char)
    (rest : List Char) :
    parseJStrAux (fuel + 1) acc (c :: rest)
      = if c = '"' then some (⟨acc.reverse⟩, rest)
        else if c = '\\' then
          (parseEscape rest).bind (fun p => parseJStrAux fuel (p.1 :: acc) p.2)
        else if 0x20 ≤ c.toNat then parseJStrAux fuel (c :: acc) rest
        else none := rfl

set_option maxRecDepth 4000 in
theorem parseJStrAux_escapeChar (c : Char) (fuel : Nat) (acc rest : List Char) :
    parseJStrAux (fuel + 1) acc (escapeChar c ++ rest)
      = parseJStrAux fuel (c :: acc) rest := by
  rw [escapeChar]
  split_ifs with h1 h2 h3 h4 h5 h6 h7 h8 h9
  · subst h1; rfl
  · subst h2; rfl
  · subst h3; rfl
  · subst h4; rfl
  · subst h5; rfl
  · subst h6; rfl
  · subst h7; rfl
  · -- printable ASCII other than the escaped characters: taken raw
    simp only [List.cons_append, List.nil_append]
    rw [parseJStrAux_succ_cons, if_neg h1, if_neg h2, if_pos h8.1]
  · -- basic-plane escape
    simp only [uEscape, List.cons_append, List.nil_append]
    rw [parseJStrAux_succ_cons, if_neg (by decide), if_pos rfl]
    rw [parseEscape_u, parseHex4_uhex (show c.toNat ≤ 0xffff by omega), opt_some_bind]
    rw [escapedOfHex.eq_def]
    rcases charValidNat c with hv | hv
    · rw [if_neg (by omega), if_neg (by omega), opt_some_bind]
      show parseJStrAux fuel (Char.ofNat c.toNat :: acc) rest = _
      rw [Char.ofNat_toNat]
    · rw [if_neg (by omega), if_neg (by omega), opt_some_bind]
      show parseJStrAux fuel (Char.ofNat c.toNat :: acc) rest = _
      rw [Char.ofNat_toNat]
  · -- astral plane: surrogate pair
    rcases charValidNat c with hv | hv
    · omega
    simp only [uEscape, List.cons_append, List.nil_append, List.append_assoc]
    rw [parseJStrAux_succ_cons, if_neg (by decide), if_pos rfl]
    rw [parseEscape_u,
      parseHex4_uhex (show 0xd800 + (c.toNat - 0x10000) / 0x400 ≤ 0xffff by omega),
      opt_some_bind]
    rw [escapedOfHex.eq_def, if_pos (by omega)]
    rw [parseLowSurrogate_cons,
      parseHex4_uhex (show 0xdc00 + (c.toNat - 0x10000) % 0x400 ≤ 0xffff by omega),
      opt_some_bind]
    rw [if_pos (by omega)]
    rw [opt_map_some, opt_some_bind]
    have hcomb : 0x10000
        + (0xd800 + (c.toNat - 0x10000) / 0x400 - 0xd800) * 0x400
        + (0xdc00 + (c.toNat - 0x10000) % 0x400 - 0xdc00) = c.toNat := by
      omega
    simp only [hcomb, Char.ofNat_toNat]

theorem parseJStrAux_escapeList (cs : List Char) : ∀ (fuel : Nat) (acc rest : List Char),
    cs.length < fuel →
    parseJStrAux fuel acc (escapeList cs ++ '"' :: rest)
      = some (⟨acc.reverse ++ cs⟩, rest) := by
  induction cs with
  | nil =>
    intro fuel acc rest hf
    match fuel, hf with
    | fuel + 1, _ => ?_
    simp only [escapeList, List.nil_append]
    rw [parseJStrAux_succ_cons, if_pos rfl]
    simp
  | cons c cs ih =>
    intro fuel acc rest hf
    match fuel, hf with
    | fuel + 1, hf => ?_
    rw [escapeList, List.append_assoc, parseJStrAux_escapeChar,
      ih fuel (c :: acc) rest (by simpa using Nat.lt_of_succ_lt_succ hf)]
    simp

theorem escapeChar_ne_nil (c : Char) : escapeChar c ≠ [] := by
  rw [escapeChar]
  split_ifs <;> simp [uEscape]

theorem escapeList_length_ge (cs : List Char) : cs.length ≤ (escapeList cs).length := by
  induction cs with
  | nil => simp [escapeList]
  | cons c t ih =>
    rw [escapeList, List.length_append, List.length_cons]
    have : 1 ≤ (escapeChar c).length := by
      rcases he : escapeChar c with _ | ⟨a, b⟩
      · exact absurd he (escapeChar_ne_nil c)
      · simp
    omega

theorem parseJStr_escapeList (s : String) (rest : List Char) :
    parseJStr (escapeList s.data ++ '"' :: rest) = some (s, rest) := by
  obtain ⟨data⟩ := s
  rw [parseJStr, parseJStrAux_escapeList]
  · simp
  · have := escapeList_length_ge data
    simp only [List.length_append, List.length_cons]
    omega

/-! ## Well-formed JSON values: unique keys in every object -/

def keysUniqueB : List String → Bool
  | [] => true
  | k :: ks => !(ks.contains k) && keysUniqueB ks

mutual
def wfB : JVal → Bool
  | .jnull => true
  | .jbool _ => true
  | .jint _ => true
  | .jstr _ => true
  | .jarr es => wfArrB es
  | .jobj ms => keysUniqueB (ms.map Prod.fst) && wfObjB ms
def wfArrB : List JVal → Bool
  | [] => true
  | e :: es => wfB e && wfArrB es
def wfObjB : List (String × JVal) → Bool
  | [] => true
  | kv :: ms => wfB kv.2 && wfObjB ms
end

theorem contains_iff_mem_str (ks : List String) (k : String) :
    ks.contains k = true ↔ k ∈ ks := List.elem_iff

theorem keysUniqueB_iff (l : List String) : keysUniqueB l = true ↔ l.Nodup := by
  induction l with
  | nil => simp [keysUniqueB]
  | cons k ks ih =>
    rw [keysUniqueB, List.nodup_cons, Bool.and_eq_true, Bool.not_eq_true',
      ← Bool.not_eq_true]
    constructor
    · rintro ⟨hc, hu⟩
      exact ⟨fun hm => hc ((contains_iff_mem_str ks k).mpr hm), ih.mp hu⟩
    · rintro ⟨hm, hu⟩
      exact ⟨fun hc => hm ((contains_iff_mem_str ks k).mp hc), ih.mpr hu⟩

/-! ## Python dict lemmas -/

theorem pyDictLookup_eq_none {α : Type} (m : List (String × α)) (k : String) :
    pyDictLookup m k = none ↔ k ∉ m.map Prod.fst := by
  induction m with
  | nil => simp [pyDictLookup]
  | cons kv tl ih =>
    obtain ⟨k', v'⟩ := kv
    by_cases hk : k' = k
    · subst hk
      simp [pyDictLookup]
    · simp [pyDictLookup, hk, ih, Ne.symm hk]

theorem pyDictContains_iff {α : Type} (m : List (String × α)) (k : String) :
    pyDictContains m k = true ↔ k ∈ m.map Prod.fst := by
  rw [pyDictContains, Option.isSome_iff_ne_none, ne_eq, pyDictLookup_eq_none]
  simp

theorem pyDictContains_false_iff {α : Type} (m : List (String × α)) (k : String) :
    pyDictContains m k = false ↔ k ∉ m.map Prod.fst := by
  rw [← Bool.not_eq_true, not_iff_not, pyDictContains_iff]

theorem pyDictInsert_of_not_contains {α : Type} {m : List (String × α)} {k : String}
    (v : α) (h : k ∉ m.map Prod.fst) : pyDictInsert m k v = m ++ [(k, v)] := by
  induction m with
  | nil => rfl
  | cons kv tl ih =>
    obtain ⟨k', v'⟩ := kv
    simp only [List.map_cons, List.mem_cons, not_or] at h
    rw [pyDictInsert, if_neg (fun hh => h.1 hh.symm), ih h.2, List.cons_append]

theorem pyDictInsert_keys {α : Type} (m : List (String × α)) (k : String) (v : α) :
    (pyDictInsert m k v).map Prod.fst
      = if k ∈ m.map Prod.fst then m.map Prod.fst else m.map Prod.fst ++ [k] := by
  induction m with
  | nil => simp [pyDictInsert]
  | cons kv tl ih =>
    obtain ⟨k', v'⟩ := kv
    by_cases hk : k' = k
    · subst hk
      simp [pyDictInsert]
    · rw [pyDictInsert, if_neg hk]
      simp only [List.map_cons, List.mem_cons]
      rw [ih]
      by_cases hm : k ∈ tl.map Prod.fst
      · rw [if_pos hm, if_pos (Or.inr hm)]
      · rw [if_neg hm, if_neg (by rintro (h | h); exact hk h.symm; exact hm h)]
        simp

theorem KeysUnique_insert {α : Type} {m : List (String × α)} (k : String) (v : α)
    (h : KeysUnique m) : KeysUnique (pyDictInsert m k v) := by
  rw [KeysUnique, pyDictInsert_keys]
  by_cases hm : k ∈ m.map Prod.fst
  · rw [if_pos hm]; exact h
  · rw [if_neg hm, List.nodup_append]
    refine ⟨h, List.nodup_singleton k, ?_⟩
    intro a ha hb
    rw [List.mem_singleton] at hb
    subst hb
    exact hm ha

theorem dictFromPairs_go {pairs : List (String × JVal)} (hu : KeysUnique pairs) :
    ∀ acc : List (String × JVal),
      (∀ k ∈ pairs.map Prod.fst, k ∉ acc.map Prod.fst) →
      pairs.foldl (fun a kv => pyDictInsert a kv.1 kv.2) acc = acc ++ pairs := by
  induction pairs with
  | nil => intro acc _; simp
  | cons kv tl ih =>
    intro acc hdisj
    obtain ⟨k, v⟩ := kv
    rw [List.foldl_cons]
    have hk : k ∉ acc.map Prod.fst := hdisj k (by simp)
    rw [pyDictInsert_of_not_contains v hk]
    rw [KeysUnique, List.map_cons, List.nodup_cons] at hu
    rw [ih hu.2 (acc ++ [(k, v)]) ?_]
    · simp
    · intro k' hk'
      simp only [List.map_append, List.mem_append, List.map_cons, List.map_nil,
        List.mem_singleton, not_or]
      refine ⟨hdisj k' (by simp [hk']), ?_⟩
      rintro rfl
      exact hu.1 hk'

theorem dictFromPairs_self {pairs : List (String × JVal)} (hu : KeysUnique pairs) :
    dictFromPairs pairs = pairs := by
  rw [dictFromPairs, dictFromPairs_go hu [] (by simp)]
  simp

theorem dictFromPairs_unique (pairs : List (String × JVal)) :
    KeysUnique (dictFromPairs pairs) := by
  rw [dictFromPairs]
  have go : ∀ (l : List (String × JVal)) (acc : List (String × JVal)),
      KeysUnique acc → KeysUnique (l.foldl (fun a kv => pyDictInsert a kv.1 kv.2) acc) := by
    intro l
    induction l with
    | nil => intro acc h; simpa using h
    | cons kv tl ih =>
      intro acc h
      rw [List.foldl_cons]
      exact ih _ (KeysUnique_insert kv.1 kv.2 h)
  exact go pairs [] (by simp [KeysUnique])

/-! ## Lemmas: the JSON codec round trip -/

theorem skipWs_cons_ws (x : List Char) : skipWs (' ' :: x) = skipWs x := rfl

theorem skipWs_not_ws {c : Char} (h : isWsB c = false) (x : List Char) :
    skipWs (c :: x) = c :: x := by
  rw [skipWs, h]
  rfl

theorem parseVal_ws (fuel : Nat) (x : List Char) :
    parseVal fuel (' ' :: x) = parseVal fuel x := by
  cases fuel with
  | zero => rfl
  | succ f =>
    simp only [parseVal]
    rw [skipWs_cons_ws]

theorem parseElems_ws (fuel : Nat) (x : List Char) :
    parseElems fuel (' ' :: x) = parseElems fuel x := by
  cases fuel with
  | zero => rfl
  | succ f =>
    simp only [parseElems]
    rw [parseVal_ws]

theorem parseMembers_ws (fuel : Nat) (x : List Char) :
    parseMembers fuel (' ' :: x) = parseMembers fuel x := by
  cases fuel with
  | zero => rfl
  | succ f =>
    simp only [parseMembers]
    rw [skipWs_cons_ws]

theorem digit_facts {c : Char} (h : isDigitB c = true) :
    isWsB c = false ∧ c ≠ ']' ∧ c ≠ '\x7d' ∧ c ≠ 'n' ∧ c ≠ 't' ∧ c ≠ 'f'
      ∧ c ≠ '"' ∧ c ≠ '[' ∧ c ≠ '\x7b' ∧ c ≠ '-' := by
  rw [isDigitB, Bool.and_eq_true, decide_eq_true_eq, decide_eq_true_eq] at h
  obtain ⟨h1, h2⟩ := h
  rw [Char.le_def] at h1 h2
  refine ⟨?_, ?_, ?_, ?_, ?_, ?_, ?_, ?_, ?_, ?_⟩
  · rw [isWsB]
    have hne : ∀ d : Char, d.val < '0'.val ∨ '9'.val < d.val → (c == d) = false := by
      intro d hd
      rcases hd with hd | hd
      · exact beq_false_of_ne (fun he => by subst he; exact absurd h1 (by simpa using hd))
      · exact beq_false_of_ne (fun he => by subst he; exact absurd h2 (by simpa using hd))
    rw [hne ' ' (by decide), hne '\t' (by decide), hne '\n' (by decide),
      hne '\x0d' (by decide)]
    rfl
  all_goals
    rintro rfl
    revert h1 h2
    decide

theorem dumpElems_cons (e : JVal) (es : List JVal) :
    dumpElems (e :: es) = dumpVal e ++ dumpElemsSep es := by
  rw [dumpElems]

theorem dumpMembers_cons (k : String) (v : JVal) (ms : List (String × JVal)) :
    dumpMembers ((k, v) :: ms)
      = dumpStr k ++ ':' :: ' ' :: (dumpVal v ++ dumpMembersSep ms) := by
  rw [dumpMembers]

theorem dumpVal_head (v : JVal) :
    ∃ c t, dumpVal v = c :: t ∧ isWsB c = false ∧ c ≠ ']' ∧ c ≠ '\x7d' := by
  cases v with
  | jnull => exact ⟨'n', _, by rw [dumpVal], by decide, by decide, by decide⟩
  | jbool b =>
    cases b with
    | false => exact ⟨'f', _, by rw [dumpVal], by decide, by decide, by decide⟩
    | true => exact ⟨'t', _, by rw [dumpVal], by decide, by decide, by decide⟩
  | jint n =>
    by_cases hn : n < 0
    · refine ⟨'-', natChars n.natAbs, ?_, by decide, by decide, by decide⟩
      rw [dumpVal, intChars, if_pos hn]
      rfl
    · obtain ⟨c0, t0, he, hc0⟩ := natChars_head_digit n.natAbs
      obtain ⟨hws, hbr, hbc, _⟩ := digit_facts hc0
      refine ⟨c0, t0 , ?_, hws, hbr, hbc⟩
      rw [dumpVal, intChars, if_neg hn, he]
      rfl
  | jstr s => exact ⟨'"', _, by rw [dumpVal, dumpStr], by decide, by decide, by decide⟩
  | jarr es => exact ⟨'[', _, by rw [dumpVal], by decide, by decide, by decide⟩
  | jobj ms => exact ⟨'\x7b', _, by rw [dumpVal], by decide, by decide, by decide⟩

theorem skipWs_dumpVal (v : JVal) (x : List Char) :
    skipWs (dumpVal v ++ x) = dumpVal v ++ x := by
  obtain ⟨c, t, hd, hws, _, _⟩ := dumpVal_head v
  rw [hd, List.cons_append, skipWs_not_ws hws]

theorem parseVal_succ_step (fuel : Nat) (cs : List Char) :
    parseVal (fuel + 1) cs
      = (match skipWs cs with
         | 'n' :: 'u' :: 'l' :: 'l' :: r => some (.jnull, r)
         | 't' :: 'r' :: 'u' :: 'e' :: r => some (.jbool true, r)
         | 'f' :: 'a' :: 'l' :: 's' :: 'e' :: r => some (.jbool false, r)
         | '"' :: r => (parseJStr r).map (fun p => (JVal.jstr p.1, p.2))
         | '[' :: r =>
           match skipWs r with
           | ']' :: r2 => some (.jarr [], r2)
           | cs2 => (parseElems fuel cs2).map (fun p => (JVal.jarr p.1, p.2))
         | '\x7b' :: r =>
           match skipWs r with
           | '\x7d' :: r2 => some (.jobj [], r2)
           | cs2 => (parseMembers fuel cs2).map (fun p => (JVal.jobj (dictFromPairs p.1), p.2))
         | cs2 => (parseIntTok cs2).map (fun p => (JVal.jint p.1, p.2))) := rfl

theorem parseElems_succ_step (fuel : Nat) (cs : List Char) :
    parseElems (fuel + 1) cs
      = (match parseVal fuel cs with
         | none => none
         | some (v, r) =>
           match skipWs r with
           | ',' :: r2 =>
             (parseElems fuel r2).map (fun p => (v :: p.1, p.2))
           | ']' :: r2 => some ([v], r2)
           | _ => none) := rfl

theorem parseMembers_succ_step (fuel : Nat) (cs : List Char) :
    parseMembers (fuel + 1) cs
      = (match skipWs cs with
         | '"' :: r =>
           match parseJStr r with
           | none => none
           | some (k, r1) =>
             match skipWs r1 with
             | ':' :: r2 =>
               match parseVal fuel r2 with
               | none => none
               | some (v, r3) =>
                 match skipWs r3 with
                 | ',' :: r4 =>
                   (parseMembers fuel r4).map (fun p => ((k, v) :: p.1, p.2))
                 | '\x7d' :: r4 => some ([(k, v)], r4)
                 | _ => none
             | _ => none
         | _ => none) := rfl

theorem parseVal_other (fuel : Nat) (c0 : Char) (t : List Char)
    (hws : isWsB c0 = false) (hlitn : c0 ≠ 'n') (hlitt : c0 ≠ 't')
    (hlitf : c0 ≠ 'f') (hstr : c0 ≠ '"') (harr : c0 ≠ '[')
    (hobj : c0 ≠ '\x7b') :
    parseVal (fuel + 1) (c0 :: t)
      = (parseIntTok (c0 :: t)).map (fun p => (JVal.jint p.1, p.2)) := by
  rw [parseVal_succ_step, skipWs_not_ws hws]
  split
  · rename_i heq
    cases heq
    exact absurd rfl hlitn
  · rename_i heq
    cases heq
    exact absurd rfl hlitt
  · rename_i heq
    cases heq
    exact absurd rfl hlitf
  · rename_i heq
    cases heq
    exact absurd rfl hstr
  · rename_i heq
    cases heq
    exact absurd rfl harr
  · rename_i heq
    cases heq
    exact absurd rfl hobj
  · rfl

theorem parseVal_arr_cons (fuel : Nat) (e : JVal) (es : List JVal) (rest : List Char) :
    parseVal (fuel + 1) ('[' :: (dumpElems (e :: es) ++ ']' :: rest))
      = (parseElems fuel (dumpElems (e :: es) ++ ']' :: rest)).map
          (fun p => (JVal.jarr p.1, p.2)) := by
  obtain ⟨c, t, hd, hws, hbr, hbc⟩ := dumpVal_head e
  have hcons : dumpElems (e :: es) ++ ']' :: rest
      = c :: (t ++ (dumpElemsSep es ++ ']' :: rest)) := by
    rw [dumpElems_cons, hd]
    simp [List.append_assoc]
  have step : parseVal (fuel + 1) ('[' :: (dumpElems (e :: es) ++ ']' :: rest))
      = (match skipWs (dumpElems (e :: es) ++ ']' :: rest) with
         | ']' :: r2 => some (JVal.jarr [], r2)
         | cs2 => (parseElems fuel cs2).map (fun p => (JVal.jarr p.1, p.2))) := rfl
  rw [step]
  rw [show skipWs (dumpElems (e :: es) ++ ']' :: rest)
      = dumpElems (e :: es) ++ ']' :: rest from by
    rw [hcons, skipWs_not_ws hws]]
  rw [hcons]
  split
  · rename_i heq
    cases heq
    exact absurd rfl hbr
  · rfl

theorem parseVal_obj_cons (fuel : Nat) (k : String) (v : JVal)
    (ms : List (String × JVal)) (rest : List Char) :
    parseVal (fuel + 1) ('\x7b' :: (dumpMembers ((k, v) :: ms) ++ '\x7d' :: rest))
      = (parseMembers fuel (dumpMembers ((k, v) :: ms) ++ '\x7d' :: rest)).map
          (fun p => (JVal.jobj (dictFromPairs p.1), p.2)) := by
  have hcons : dumpMembers ((k, v) :: ms) ++ '\x7d' :: rest
      = '"' :: (escapeList k.data
          ++ ('"' :: ':' :: ' ' :: (dumpVal v ++ (dumpMembersSep ms ++ '\x7d' :: rest)))) := by
    rw [dumpMembers_cons, dumpStr]
    simp [List.append_assoc]
  have step : parseVal (fuel + 1) ('\x7b' :: (dumpMembers ((k, v) :: ms) ++ '\x7d' :: rest))
      = (match skipWs (dumpMembers ((k, v) :: ms) ++ '\x7d' :: rest) with
         | '\x7d' :: r2 => some (JVal.jobj [], r2)
         | cs2 => (parseMembers fuel cs2).map
             (fun p => (JVal.jobj (dictFromPairs p.1), p.2))) := rfl
  rw [step]
  rw [show skipWs (dumpMembers ((k, v) :: ms) ++ '\x7d' :: rest)
      = dumpMembers ((k, v) :: ms) ++ '\x7d' :: rest from by
    rw [hcons, skipWs_not_ws (by decide)]]
  rw [hcons]
  split
  · rename_i heq
    cases heq
  · rfl

theorem parseVal_quote (fuel : Nat) (r : List Char) :
    parseVal (fuel + 1) ('"' :: r)
      = (parseJStr r).map (fun p => (JVal.jstr p.1, p.2)) := rfl

theorem parseMembers_quote (fuel : Nat) (r : List Char) :
    parseMembers (fuel + 1) ('"' :: r)
      = (match parseJStr r with
         | none => none
         | some (k, r1) =>
           match skipWs r1 with
           | ':' :: r2 =>
             match parseVal fuel r2 with
             | none => none
             | some (v, r3) =>
               match skipWs r3 with
               | ',' :: r4 =>
                 (parseMembers fuel r4).map (fun p => ((k, v) :: p.1, p.2))
               | '\x7d' :: r4 => some ([(k, v)], r4)
               | _ => none
           | _ => none) := rfl

mutual
theorem rt_val : ∀ (v : JVal) (fuel : Nat) (rest : List Char),
    wfB v = true → (dumpVal v).length < fuel → digitDelim rest = true →
    parseVal fuel (dumpVal v ++ rest) = some (v, rest)
  | .jnull, fuel, rest, _, hf, _ => by
    cases fuel with
    | zero => exact absurd hf (Nat.not_lt_zero _)
    | succ f =>
      rw [show dumpVal .jnull = ['n', 'u', 'l', 'l'] from by rw [dumpVal]]
      rfl
  | .jbool true, fuel, rest, _, hf, _ => by
    cases fuel with
    | zero => exact absurd hf (Nat.not_lt_zero _)
    | succ f =>
      rw [show dumpVal (.jbool true) = ['t', 'r', 'u', 'e'] from by rw [dumpVal]]
      rfl
  | .jbool false, fuel, rest, _, hf, _ => by
    cases fuel with
    | zero => exact absurd hf (Nat.not_lt_zero _)
    | succ f =>
      rw [show dumpVal (.jbool false) = ['f', 'a', 'l', 's', 'e'] from by rw [dumpVal]]
      rfl
  | .jint n, fuel, rest, _, hf, hr => by
    cases fuel with
    | zero => exact absurd hf (Nat.not_lt_zero _)
    | succ f =>
      rw [show dumpVal (.jint n) = intChars n from by rw [dumpVal]]
      by_cases hn : n < 0
      · have harg : intChars n ++ rest = '-' :: (natChars n.natAbs ++ rest) := by
          rw [intChars, if_pos hn]
          rfl
        rw [harg, parseVal_other f '-' _ (by decide) (by decide) (by decide) (by decide)
          (by decide) (by decide) (by decide), ← harg, parseIntTok_intChars n rest hr]
        rfl
      · obtain ⟨c0, t0, he, hc0⟩ := natChars_head_digit n.natAbs
        obtain ⟨hws, _, _, hcn, hct, hcf, hcq, hck, hcb, _⟩ := digit_facts hc0
        have harg : intChars n ++ rest = c0 :: (t0 ++ rest) := by
          rw [intChars, if_neg hn, he]
          rfl
        rw [harg, parseVal_other f c0 _ hws hcn hct hcf hcq hck hcb, ← harg,
          parseIntTok_intChars n rest hr]
        rfl
  | .jstr s, fuel, rest, _, hf, _ => by
    cases fuel with
    | zero => exact absurd hf (Nat.not_lt_zero _)
    | succ f =>
      have harg : dumpVal (.jstr s) ++ rest = '"' :: (escapeList s.data ++ '"' :: rest) := by
        rw [dumpVal, dumpStr]
        simp
      rw [harg, parseVal_quote, parseJStr_escapeList]
      rfl
  | .jarr [], fuel, rest, _, hf, _ => by
    cases fuel with
    | zero => exact absurd hf (Nat.not_lt_zero _)
    | succ f =>
      have harg : dumpVal (.jarr []) ++ rest = '[' :: ']' :: rest := by
        rw [dumpVal, dumpElems]
        rfl
      rw [harg]
      rfl
  | .jarr (e :: es), fuel, rest, hwf, hf, _ => by
    cases fuel with
    | zero => exact absurd hf (Nat.not_lt_zero _)
    | succ f =>
      rw [show dumpVal (.jarr (e :: es)) = '[' :: (dumpElems (e :: es) ++ [']'])
        from by rw [dumpVal]] at hf ⊢
      have harg : ('[' :: (dumpElems (e :: es) ++ [']'])) ++ rest
          = '[' :: (dumpElems (e :: es) ++ ']' :: rest) := by
        simp
      rw [harg, parseVal_arr_cons]
      rw [wfB, wfArrB] at hwf
      have hlen : (dumpElems (e :: es)).length + 1 < f := by
        simp only [List.length_cons, List.length_append, List.length_singleton] at hf
        omega
      rw [rt_elems e es f rest hwf hlen]
      rfl
  | .jobj [], fuel, rest, _, hf, _ => by
    cases fuel with
    | zero => exact absurd hf (Nat.not_lt_zero _)
    | succ f =>
      have harg : dumpVal (.jobj []) ++ rest = '\x7b' :: '\x7d' :: rest := by
        rw [dumpVal, dumpMembers]
        rfl
      rw [harg]
      rfl
  | .jobj ((k, v) :: ms), fuel, rest, hwf, hf, _ => by
    cases fuel with
    | zero => exact absurd hf (Nat.not_lt_zero _)
    | succ f =>
      rw [show dumpVal (.jobj ((k, v) :: ms))
          = '\x7b' :: (dumpMembers ((k, v) :: ms) ++ ['\x7d'])
        from by rw [dumpVal]] at hf ⊢
      have harg : ('\x7b' :: (dumpMembers ((k, v) :: ms) ++ ['\x7d'])) ++ rest
          = '\x7b' :: (dumpMembers ((k, v) :: ms) ++ '\x7d' :: rest) := by
        simp
      rw [harg, parseVal_obj_cons]
      rw [wfB, Bool.and_eq_true] at hwf
      have hobj : (wfB v && wfObjB ms) = true := by
        have := hwf.2
        rw [wfObjB] at this
        exact this
      have hlen : (dumpMembers ((k, v) :: ms)).length + 1 < f := by
        simp only [List.length_cons, List.length_append, List.length_singleton] at hf
        omega
      rw [rt_members k v ms f rest hobj hlen]
      show some (JVal.jobj (dictFromPairs ((k, v) :: ms)), rest)
          = some (JVal.jobj ((k, v) :: ms), rest)
      rw [dictFromPairs_self (keysUniqueB_iff _ |>.mp hwf.1)]
termination_by v _ _ _ _ _ => sizeOf v

theorem rt_elems : ∀ (e : JVal) (es : List JVal) (fuel : Nat) (rest : List Char),
    (wfB e && wfArrB es) = true → (dumpElems (e :: es)).length + 1 < fuel →
    parseElems fuel (dumpElems (e :: es) ++ ']' :: rest) = some (e :: es, rest)
  | e, [], fuel, rest, hwf, hf => by
    cases fuel with
    | zero => exact absurd hf (Nat.not_lt_zero _)
    | succ f =>
      rw [Bool.and_eq_true] at hwf
      have he : dumpElems (e :: []) = dumpVal e := by
        rw [dumpElems_cons, dumpElemsSep]
        simp
      rw [he] at hf ⊢
      rw [parseElems_succ_step,
        rt_val e f (']' :: rest) hwf.1 (by omega) (by rfl)]
      rfl
  | e, x :: xs, fuel, rest, hwf, hf => by
    cases fuel with
    | zero => exact absurd hf (Nat.not_lt_zero _)
    | succ f =>
      rw [Bool.and_eq_true] at hwf
      have hsep : dumpElems (e :: x :: xs)
          = dumpVal e ++ ',' :: ' ' :: (dumpVal x ++ dumpElemsSep xs) := by
        rw [dumpElems_cons, dumpElemsSep]
      have harg : dumpElems (e :: x :: xs) ++ ']' :: rest
          = dumpVal e ++ (',' :: ' ' :: (dumpElems (x :: xs) ++ ']' :: rest)) := by
        rw [hsep, dumpElems_cons]
        simp
      have hlen : (dumpElems (e :: x :: xs)).length
          = (dumpVal e).length + 2 + (dumpElems (x :: xs)).length := by
        rw [hsep, dumpElems_cons]
        simp
        omega
      rw [harg, parseElems_succ_step,
        rt_val e f (',' :: ' ' :: (dumpElems (x :: xs) ++ ']' :: rest)) hwf.1
          (by omega) (by rfl)]
      show (parseElems f (' ' :: (dumpElems (x :: xs) ++ ']' :: rest))).map
          (fun p => (e :: p.1, p.2)) = some (e :: x :: xs, rest)
      have hxs : (wfB x && wfArrB xs) = true := by
        have := hwf.2
        rw [wfArrB] at this
        exact this
      rw [parseElems_ws, rt_elems x xs f rest hxs (by omega)]
      rfl
termination_by e es _ _ _ _ => sizeOf e + sizeOf es

theorem rt_members : ∀ (k : String) (v : JVal) (ms : List (String × JVal))
    (fuel : Nat) (rest : List Char),
    (wfB v && wfObjB ms) = true → (dumpMembers ((k, v) :: ms)).length + 1 < fuel →
    parseMembers fuel (dumpMembers ((k, v) :: ms) ++ '\x7d' :: rest)
      = some ((k, v) :: ms, rest)
  | k, v, [], fuel, rest, hwf, hf => by
    cases fuel with
    | zero => exact absurd hf (Nat.not_lt_zero _)
    | succ f =>
      rw [Bool.and_eq_true] at hwf
      have harg : dumpMembers ((k, v) :: []) ++ '\x7d' :: rest
          = '"' :: (escapeList k.data
              ++ '"' :: (':' :: ' ' :: (dumpVal v ++ '\x7d' :: rest))) := by
        rw [dumpMembers_cons, dumpStr, dumpMembersSep]
        simp
      have hlenv : (dumpVal v).length < f := by
        rw [dumpMembers_cons, dumpMembersSep] at hf
        simp only [List.length_append, List.length_cons] at hf
        omega
      rw [harg, parseMembers_quote, parseJStr_escapeList]
      show (match parseVal f (' ' :: (dumpVal v ++ '\x7d' :: rest)) with
        | none => none
        | some (v, r3) =>
          match skipWs r3 with
          | ',' :: r4 => (parseMembers f r4).map (fun p => ((k, v) :: p.1, p.2))
          | '\x7d' :: r4 => some ([(k, v)], r4)
          | _ => none) = some ([(k, v)], rest)
      rw [parseVal_ws, rt_val v f ('\x7d' :: rest) hwf.1 hlenv (by rfl)]
      rfl
  | k, v, (k2, v2) :: ms, fuel, rest, hwf, hf => by
    cases fuel with
    | zero => exact absurd hf (Nat.not_lt_zero _)
    | succ f =>
      rw [Bool.and_eq_true] at hwf
      have hsep : dumpMembersSep ((k2, v2) :: ms)
          = ',' :: ' ' :: (dumpStr k2 ++ ':' :: ' ' :: (dumpVal v2 ++ dumpMembersSep ms)) := by
        rw [dumpMembersSep]
      have harg : dumpMembers ((k, v) :: (k2, v2) :: ms) ++ '\x7d' :: rest
          = '"' :: (escapeList k.data ++ '"' :: (':' :: ' ' :: (dumpVal v
              ++ (',' :: ' ' :: (dumpMembers ((k2, v2) :: ms) ++ '\x7d' :: rest))))) := by
        rw [dumpMembers_cons, hsep, dumpStr, dumpMembers_cons]
        simp
      have hlens : (dumpMembers ((k, v) :: (k2, v2) :: ms)).length
          = (escapeList k.data).length + 4 + (dumpVal v).length + 2
            + (dumpMembers ((k2, v2) :: ms)).length := by
        rw [dumpMembers_cons, hsep, dumpStr, dumpMembers_cons, dumpStr]
        simp
        omega
      rw [harg, parseMembers_quote, parseJStr_escapeList]
      show (match parseVal f (' ' :: (dumpVal v
          ++ (',' :: ' ' :: (dumpMembers ((k2, v2) :: ms) ++ '\x7d' :: rest)))) with
        | none => none
        | some (v, r3) =>
          match skipWs r3 with
          | ',' :: r4 => (parseMembers f r4).map (fun p => ((k, v) :: p.1, p.2))
          | '\x7d' :: r4 => some ([(k, v)], r4)
          | _ => none) = some ((k, v) :: (k2, v2) :: ms, rest)
      have hlenv : (dumpVal v).length < f := by
        rw [hlens] at hf
        omega
      rw [parseVal_ws, rt_val v f
        (',' :: ' ' :: (dumpMembers ((k2, v2) :: ms) ++ '\x7d' :: rest)) hwf.1
        hlenv (by rfl)]
      show (parseMembers f (' ' :: (dumpMembers ((k2, v2) :: ms) ++ '\x7d' :: rest))).map
          (fun p => ((k, v) :: p.1, p.2)) = some ((k, v) :: (k2, v2) :: ms, rest)
      have hms : (wfB v2 && wfObjB ms) = true := by
        have := hwf.2
        rw [wfObjB] at this
        exact this
      rw [parseMembers_ws, rt_members k2 v2 ms f rest hms (by rw [hlens] at hf; omega)]
      rfl
termination_by _ v ms _ _ _ _ => sizeOf v + sizeOf ms
end

/-- The text-level codec round trip: CPython's `json` reads back exactly
the document it wrote, for any value whose objects have unique keys. -/
theorem json_loads_dumps (v : JVal) (hwf : wfB v = true) :
    json_loads (json_dumps v) = some v := by
  rw [json_loads]
  have h1 : parseVal ((dumpVal v).length + 1) (dumpVal v ++ []) = some (v, []) :=
    rt_val v _ [] hwf (by simp) (by rfl)
  rw [List.append_nil] at h1
  show (match parseVal ((dumpVal v).length + 1) (dumpVal v) with
    | some (v, rest) => if (skipWs rest).isEmpty = true then some v else none
    | none => none) = some v
  rw [h1]
  rfl

/-- Every object the parser builds goes through `dictFromPairs`, so a
parsed top-level object has unique keys. -/
theorem parseVal_jobj_unique {fuel : Nat} {cs : List Char}
    {fields : List (String × JVal)} {rest : List Char}
    (h : parseVal fuel cs = some (.jobj fields, rest)) : KeysUnique fields := by
  cases fuel with
  | zero => exact Option.noConfusion h
  | succ f =>
    rw [parseVal_succ_step] at h
    split at h
    · simp at h
    · simp at h
    · simp at h
    · obtain ⟨p, _, hp⟩ := Option.map_eq_some'.mp h
      simp at hp
    · split at h
      · simp at h
      · obtain ⟨p, _, hp⟩ := Option.map_eq_some'.mp h
        simp at hp
    · split at h
      · simp only [Option.some.injEq, Prod.mk.injEq, JVal.jobj.injEq] at h
        rw [← h.1]
        simp [KeysUnique]
      · obtain ⟨p, _, hp⟩ := Option.map_eq_some'.mp h
        simp only [Prod.mk.injEq, JVal.jobj.injEq] at hp
        rw [← hp.1]
        exact dictFromPairs_unique p.1
    · obtain ⟨p, _, hp⟩ := Option.map_eq_some'.mp h
      simp at hp

theorem json_loads_jobj_unique {s : String} {fields : List (String × JVal)}
    (h : json_loads s = some (.jobj fields)) : KeysUnique fields := by
  rw [json_loads] at h
  split at h
  · rename_i v rest hp
    split at h
    · cases h
      exact parseVal_jobj_unique hp
    · exact Option.noConfusion h
  · exact Option.noConfusion h

/-- A loaded store always has unique keys at the top level: the missing
and corrupt cases give the empty dict, a parsed object was built by
dict insertion. -/
theorem load_assignments_unique {fs : FileState} {m : List (String × JVal)}
    (h : load_assignments fs = .jobj m) : KeysUnique m := by
  cases fs with
  | absent =>
    rw [load_assignments] at h
    cases h
    simp [KeysUnique]
  | present content =>
    rw [load_assignments] at h
    split at h
    · rename_i v hv
      subst h
      exact json_loads_jobj_unique hv
    · cases h
      simp [KeysUnique]

/-! ## Further dict lemmas for removal and overwrite -/

theorem pyDictLookup_insert {α : Type} (m : List (String × α)) (k : String) (v : α) :
    pyDictLookup (pyDictInsert m k v) k = some v := by
  induction m with
  | nil => simp [pyDictInsert, pyDictLookup]
  | cons kv tl ih =>
    obtain ⟨k', v'⟩ := kv
    by_cases hk : k' = k
    · subst hk
      simp [pyDictInsert, pyDictLookup]
    · rw [pyDictInsert, if_neg hk, pyDictLookup, if_neg hk]
      exact ih

theorem countKey_eq_one_of_unique {α : Type} {m : List (String × α)} {k : String}
    (hu : KeysUnique m) (hm : k ∈ m.map Prod.fst) : countKey m k = 1 := by
  rw [countKey]
  exact List.count_eq_one_of_mem hu hm

theorem countKey_insert_unique {α : Type} {m : List (String × α)} (k : String) (v : α)
    (hu : KeysUnique m) : countKey (pyDictInsert m k v) k = 1 :=
  countKey_eq_one_of_unique (KeysUnique_insert k v hu)
    (by
      rw [pyDictInsert_keys]
      by_cases hm : k ∈ m.map Prod.fst
      · rwa [if_pos hm]
      · rw [if_neg hm]
        simp)

theorem pyDictDel_keys {α : Type} {m : List (String × α)} {name : String}
    (hu : KeysUnique m) : name ∉ (pyDictDel m name).map Prod.fst := by
  induction m with
  | nil => simp [pyDictDel]
  | cons kv tl ih =>
    obtain ⟨k', v'⟩ := kv
    rw [KeysUnique, List.map_cons, List.nodup_cons] at hu
    by_cases hk : k' = name
    · subst hk
      rw [pyDictDel, if_pos rfl]
      exact hu.1
    · rw [pyDictDel, if_neg hk]
      simp only [List.map_cons, List.mem_cons, not_or]
      exact ⟨fun h => hk h.symm, ih hu.2⟩

theorem pyDictDel_lookup_other {α : Type} (m : List (String × α)) (name k : String)
    (hk : k ≠ name) : pyDictLookup (pyDictDel m name) k = pyDictLookup m k := by
  induction m with
  | nil => rfl
  | cons kv tl ih =>
    obtain ⟨k', v'⟩ := kv
    by_cases h1 : k' = name
    · subst h1
      rw [pyDictDel, if_pos rfl, pyDictLookup, if_neg (fun h => hk h.symm)]
    · rw [pyDictDel, if_neg h1, pyDictLookup, pyDictLookup]
      split
      · rfl
      · exact ih

/-! ## Well-formedness of the records the store writes -/

theorem wfB_mkRecord (dd : DateTime) (details : Option String) (p u : Int)
    (t : DateTime) : wfB (mkRecord dd details p u t) = true := by
  rw [mkRecord, wfB]
  rw [wfObjB, wfObjB, wfObjB, wfObjB, wfObjB, wfObjB]
  rw [wfB, wfB, wfB, wfB, wfB]
  simp [keysUniqueB, List.contains]

theorem wfB_encodeAssignment (a : Assignment) :
    wfB (encodeAssignment a) = true := by
  rw [encodeAssignment, wfB]
  rw [wfObjB, wfObjB, wfObjB, wfObjB, wfObjB, wfObjB]
  rw [wfB, wfB, wfB, wfB, wfB]
  simp [keysUniqueB, List.contains]

theorem wfObjB_insert {m : List (String × JVal)} {k : String} {v : JVal}
    (hm : wfObjB m = true) (hv : wfB v = true) :
    wfObjB (pyDictInsert m k v) = true := by
  induction m with
  | nil => simp [pyDictInsert, wfObjB, hv]
  | cons kv tl ih =>
    obtain ⟨k', v'⟩ := kv
    rw [wfObjB, Bool.and_eq_true] at hm
    by_cases hk : k' = k
    · subst hk
      rw [pyDictInsert, if_pos rfl, wfObjB]
      simp [hv, hm.2]
    · rw [pyDictInsert, if_neg hk, wfObjB]
      simp [hm.1, ih hm.2]

theorem wfB_jobj_insert {m : List (String × JVal)} {k : String} {v : JVal}
    (hm : wfB (.jobj m) = true) (hv : wfB v = true) :
    wfB (.jobj (pyDictInsert m k v)) = true := by
  rw [wfB, Bool.and_eq_true] at hm ⊢
  refine ⟨?_, wfObjB_insert hm.2 hv⟩
  rw [keysUniqueB_iff]
  exact KeysUnique_insert k v ((keysUniqueB_iff _).mp hm.1)

theorem wfB_encodeMapping (m : List (String × Assignment))
    (hu : (m.map Prod.fst).Nodup) : wfB (encodeMapping m) = true := by
  rw [encodeMapping, wfB, Bool.and_eq_true]
  constructor
  · rw [keysUniqueB_iff]
    simpa [KeysUnique, List.map_map, Function.comp] using hu
  · clear hu
    induction m with
    | nil => rfl
    | cons kv tl ih =>
      rw [List.map_cons, wfObjB, Bool.and_eq_true]
      exact ⟨wfB_encodeAssignment kv.2, ih⟩

/-! ## The claims -/

/-- The Relative style as §4.2 words it: strictly past deadlines render
`"<N> days ago"` with N the absolute value of the floored day delta,
deadlines within the next 24 hours render `"Today"`, within the next 48
hours `"Tomorrow"`, and otherwise `"In <N> days"` with N the floored
whole days until the deadline. -/
def relativeSpec (deadline now : DateTime) : String :=
  if deadline.toMicro < now.toMicro then
    s!"{((deadline.toMicro - now.toMicro).fdiv usPerDay).natAbs} days ago"
  else if deadline.toMicro < now.toMicro + usPerDay then "Today"
  else if deadline.toMicro < now.toMicro + 2 * usPerDay then "Tomorrow"
  else s!"In {(deadline.toMicro - now.toMicro).fdiv usPerDay} days"

/-- C1: for every deadline and clock value, the Relative style renders
per the spec's four cases (past → `"<N> days ago"` with N = |floored day
delta|; next 24 hours → `"Today"`; next 48 hours → `"Tomorrow"`;
otherwise `"In <N> days"` with N = floored days until the deadline), and
at the fixed clock 2024-06-01T12:00 the four sample deadlines render
`"2 days ago"`, `"Today"`, `"Tomorrow"` and `"In 9 days"`. -/
theorem relative_formatting_correct :
    (∀ (deadline now : DateTime),
      format_deadline_parsed deadline .RELATIVE now = relativeSpec deadline now)
    ∧ format_deadline "2024-05-30T12:00:00" .RELATIVE ⟨2024, 6, 1, 12, 0, 0, 0⟩
        = some "2 days ago"
    ∧ format_deadline "2024-06-01T18:00:00" .RELATIVE ⟨2024, 6, 1, 12, 0, 0, 0⟩
        = some "Today"
    ∧ format_deadline "2024-06-02T12:00:00" .RELATIVE ⟨2024, 6, 1, 12, 0, 0, 0⟩
        = some "Tomorrow"
    ∧ format_deadline "2024-06-10T12:00:00" .RELATIVE ⟨2024, 6, 1, 12, 0, 0, 0⟩
        = some "In 9 days" := by
  refine ⟨?_, by decide, by decide, by decide, by decide⟩
  intro deadline now
  rw [format_deadline_parsed, relativeSpec]
  by_cases h1 : deadline.toMicro < now.toMicro
  · rw [if_pos (by omega), if_pos h1]
  · rw [if_neg (by omega), if_neg h1]
    by_cases h2 : deadline.toMicro < now.toMicro + usPerDay
    · rw [if_pos (by omega), if_pos h2]
    · rw [if_neg (by omega), if_neg h2]
      by_cases h3 : deadline.toMicro < now.toMicro + 2 * usPerDay
      · rw [if_pos (by omega), if_pos h3]
      · rw [if_neg (by omega), if_neg h3]

def entryA : Entry := ("a", JVal.jnull, ⟨2024, 1, 1, 0, 0, 0, 0⟩)

def entryB : Entry := ("b", JVal.jnull, ⟨2024, 1, 2, 0, 0, 0, 0⟩)

/-- C2 counterexample: the claim says every `limit ≤ 0` yields an empty
result, but `lst[:limit]` with `limit = -1` is Python slicing from the
end: on a two-entry list it keeps the first entry. -/
theorem renderList_neg_limit_counterexample :
    ((-1 : Int) ≤ 0) ∧ renderList [entryA, entryB] [] false (-1) = [entryA] := by
  exact ⟨by decide, rfl⟩

/-- C2 (amended): `renderList` with `limit = 0` returns the empty
sequence for every input; a negative `limit` follows Python slice
semantics, returning the concatenation with its last `|limit|` entries
dropped — empty exactly when the input has at most `|limit|` entries. -/
theorem renderList_nonpositive_limit :
    (∀ (upcoming past : List Entry) (show_all : Bool),
      renderList upcoming past show_all 0 = [])
    ∧ (∀ (upcoming past : List Entry) (show_all : Bool) (limit : Int),
        limit < 0 →
        renderList upcoming past show_all limit
          = (upcoming ++ (if show_all then past else [])).take
              ((upcoming ++ (if show_all then past else [])).length - (-limit).toNat)
        ∧ (renderList upcoming past show_all limit = []
            ↔ (upcoming ++ (if show_all then past else [])).length ≤ (-limit).toNat)) := by
  constructor
  · intro upcoming past show_all
    rw [renderList, pySliceTo, if_pos le_rfl]
    simp
  · intro upcoming past show_all limit hneg
    set l := upcoming ++ (if show_all then past else []) with hl
    have heq : renderList upcoming past show_all limit
        = l.take (l.length - (-limit).toNat) := by
      rw [renderList, pySliceTo, if_neg (by omega), ← hl]
      congr 1
      omega
    refine ⟨heq, ?_⟩
    rw [heq, List.take_eq_nil_iff]
    constructor
    · rintro (h | h)
      · omega
      · rw [h]
        simp
    · intro h
      left
      omega

/-- C2 witness. -/
theorem renderList_nonpositive_limit_witness :
    ((-1 : Int) < 0)
    ∧ (renderList [entryA, entryB] [] false (-1)
        = ([entryA, entryB] ++ ([] : List Entry)).take
            (([entryA, entryB] ++ ([] : List Entry)).length - (-(-1 : Int)).toNat)
      ∧ (renderList [entryA, entryB] [] false (-1) = []
          ↔ ([entryA, entryB] ++ ([] : List Entry)).length ≤ (-(-1 : Int)).toNat)) :=
  ⟨by decide, renderList_nonpositive_limit.2 [entryA, entryB] [] false (-1) (by decide)⟩

/-- C3: every record `add` writes carries `priority` clamped to `[1, 5]`
as `min(max(1, priority), 5)`, so it is always between 1 and 5; in
particular priority 0 stores 1, priority 9 stores 5, priority 3 stores
3. -/
theorem add_priority_clamped :
    (∀ (fs : FileState) (name deadline : String) (details : Option String)
        (priority user_id : Int) (now : DateTime) (nf : FileState) (stored : JVal),
      add_assignment fs name deadline details priority user_id now = .ok nf stored →
      ∃ fields, stored = .jobj fields
        ∧ pyDictLookup fields "priority" = some (.jint (min (max 1 priority) 5))
        ∧ (1 : Int) ≤ min (max 1 priority) 5 ∧ min (max 1 priority) 5 ≤ 5)
    ∧ min (max (1 : Int) 0) 5 = 1 ∧ min (max (1 : Int) 9) 5 = 5
    ∧ min (max (1 : Int) 3) 5 = 3 := by
  refine ⟨?_, by decide, by decide, by decide⟩
  intro fs name deadline details priority user_id now nf stored h
  rw [add_assignment] at h
  split at h
  · exact AddResult.noConfusion h
  · split at h
    · rw [AddResult.ok.injEq] at h
      obtain ⟨-, h2⟩ := h
      subst h2
      rw [mkRecord]
      refine ⟨_, rfl, ?_, ?_, ?_⟩
      · rw [pyDictLookup, if_neg (by decide), pyDictLookup, if_neg (by decide),
          pyDictLookup, if_pos rfl]
      · rcases le_total priority 1 with h | h <;> rcases le_total priority 5 with h5 | h5 <;>
          simp [min_def, max_def] <;> omega
      · rcases le_total priority 1 with h | h <;> rcases le_total priority 5 with h5 | h5 <;>
          simp [min_def, max_def] <;> omega
    · exact AddResult.noConfusion h

/-- C3 witness. -/
theorem add_priority_clamped_witness :
    ∃ fields,
      mkRecord ⟨2024, 6, 3, 10, 0, 0, 0⟩ none 9 77 ⟨2024, 6, 1, 12, 0, 0, 0⟩
        = JVal.jobj fields
      ∧ pyDictLookup fields "priority" = some (.jint (min (max 1 9) 5))
      ∧ (1 : Int) ≤ min (max 1 9) 5 ∧ min (max (1 : Int) 9) 5 ≤ 5 :=
  add_priority_clamped.1 .absent "HW" "2024-06-03 10:00" none 9 77
    ⟨2024, 6, 1, 12, 0, 0, 0⟩
    (save_assignments (.jobj (pyDictInsert [] "HW"
      (mkRecord ⟨2024, 6, 3, 10, 0, 0, 0⟩ none 9 77 ⟨2024, 6, 1, 12, 0, 0, 0⟩))))
    (mkRecord ⟨2024, 6, 3, 10, 0, 0, 0⟩ none 9 77 ⟨2024, 6, 1, 12, 0, 0, 0⟩)
    (by rfl)

/-- C5: `load` is total and returns the empty mapping when the backing
file is absent, and when the content fails to decode as JSON. -/
theorem load_missing_or_corrupt_empty :
    load_assignments .absent = JVal.jobj []
    ∧ (∀ content : String, json_loads content = none →
        load_assignments (.present content) = JVal.jobj []) := by
  refine ⟨rfl, ?_⟩
  intro content h
  rw [load_assignments, h]

/-- C5 witness. -/
theorem load_missing_or_corrupt_empty_witness :
    json_loads "not json" = none
    ∧ load_assignments (.present "not json") = JVal.jobj [] :=
  ⟨rfl, load_missing_or_corrupt_empty.2 "not json" rfl⟩

/-- C6: `add` replies `invalidDeadline` exactly when the deadline text
fails to parse under `"%Y-%m-%d %H:%M"`; when it parses, the add
succeeds for every `name` and `details` (no other validation), storing
the record under `name` and saving — the failure is a typed reply, never
an escaping exception. -/
theorem add_invalid_deadline_iff :
    (∀ (fs : FileState) (name deadline : String) (details : Option String)
        (priority user_id : Int) (now : DateTime),
      add_assignment fs name deadline details priority user_id now = .invalidDeadline
        ↔ strptime_ymd_hm deadline = none)
    ∧ (∀ (fs : FileState) (m : List (String × JVal)) (name deadline : String)
        (details : Option String) (priority user_id : Int) (now : DateTime)
        (dd : DateTime),
      load_assignments fs = .jobj m → strptime_ymd_hm deadline = some dd →
      add_assignment fs name deadline details priority user_id now
        = .ok (save_assignments (.jobj (pyDictInsert m name
              (mkRecord dd details priority user_id now))))
            (mkRecord dd details priority user_id now)) := by
  constructor
  · intro fs name deadline details priority user_id now
    constructor
    · intro h
      rw [add_assignment] at h
      split at h
      · assumption
      · split at h
        · exact AddResult.noConfusion h
        · exact AddResult.noConfusion h
    · intro h
      rw [add_assignment, h]
  · intro fs m name deadline details priority user_id now dd hload hparse
    rw [add_assignment, hparse, hload]

/-- C6 witness. -/
theorem add_invalid_deadline_iff_witness :
    load_assignments .absent = JVal.jobj []
    ∧ strptime_ymd_hm "2024-06-03 10:00" = some ⟨2024, 6, 3, 10, 0, 0, 0⟩
    ∧ add_assignment .absent "" "2024-06-03 10:00" none 3 77 ⟨2024, 6, 1, 12, 0, 0, 0⟩
      = .ok (save_assignments (.jobj (pyDictInsert [] ""
            (mkRecord ⟨2024, 6, 3, 10, 0, 0, 0⟩ none 3 77 ⟨2024, 6, 1, 12, 0, 0, 0⟩))))
          (mkRecord ⟨2024, 6, 3, 10, 0, 0, 0⟩ none 3 77 ⟨2024, 6, 1, 12, 0, 0, 0⟩) :=
  ⟨rfl, by decide,
    add_invalid_deadline_iff.2 .absent [] "" "2024-06-03 10:00" none 3 77
      ⟨2024, 6, 1, 12, 0, 0, 0⟩ ⟨2024, 6, 3, 10, 0, 0, 0⟩ rfl (by decide)⟩

/-- C10: `load` maps only decode failures to the empty dict — a file
holding valid JSON that is not an object comes back unchanged (here a
JSON array), so downstream item assignment on it is the uncaught
`TypeError`, not a mapping operation. -/
theorem load_non_object_passthrough :
    load_assignments (.present "[1, 2]") = JVal.jarr [.jint 1, .jint 2]
    ∧ add_assignment (.present "[1, 2]") "X" "2024-06-03 10:00" none 3 7
        ⟨2024, 6, 1, 12, 0, 0, 0⟩ = .typeError := by
  exact ⟨rfl, rfl⟩

/-- C7: `remove` reports exactly whether the name was present; when
present it deletes that entry and only it (other lookups are unchanged),
so a second removal of the same name returns `false`; when absent it is
a no-op returning the mapping unchanged, and the command takes the
not-found reply without writing the backing file. -/
theorem remove_spec :
    (∀ (m : List (String × JVal)) (name : String),
      (remove_assignment m name).2 = pyDictContains m name)
    ∧ (∀ (m : List (String × JVal)) (name : String),
        pyDictContains m name = false → remove_assignment m name = (m, false))
    ∧ (∀ (m : List (String × JVal)) (name : String), KeysUnique m →
        pyDictContains m name = true →
        (remove_assignment m name).2 = true
        ∧ pyDictContains (remove_assignment m name).1 name = false
        ∧ (remove_assignment (remove_assignment m name).1 name).2 = false
        ∧ ∀ k, k ≠ name →
            pyDictLookup (remove_assignment m name).1 k = pyDictLookup m k)
    ∧ (∀ (fs : FileState) (m : List (String × JVal)) (name : String),
        load_assignments fs = .jobj m → pyDictContains m name = false →
        remove_command fs name = .notFound) := by
  refine ⟨?_, ?_, ?_, ?_⟩
  · intro m name
    rw [remove_assignment]
    split
    · rename_i h
      rw [h]
    · rename_i h
      rw [Bool.not_eq_true] at h
      rw [h]
  · intro m name h
    rw [remove_assignment, if_neg (by rw [h]; exact Bool.false_ne_true)]
  · intro m name hu hc
    have hdel : (remove_assignment m name).1 = pyDictDel m name := by
      rw [remove_assignment, if_pos hc]
    have hnc : pyDictContains (pyDictDel m name) name = false := by
      rw [pyDictContains_false_iff]
      exact pyDictDel_keys hu
    refine ⟨?_, ?_, ?_, ?_⟩
    · rw [remove_assignment, if_pos hc]
    · rw [hdel]
      exact hnc
    · rw [hdel, remove_assignment, if_neg (by rw [hnc]; exact Bool.false_ne_true)]
    · intro k hk
      rw [hdel]
      exact pyDictDel_lookup_other m name k hk
  · intro fs m name hload hc
    rw [remove_command, hload]
    show (if pyDictContains m name = true then
        RemoveResult.removed (save_assignments (JVal.jobj (pyDictDel m name)))
      else RemoveResult.notFound) = RemoveResult.notFound
    rw [if_neg (by rw [hc]; exact Bool.false_ne_true)]

/-- C7 witness. -/
theorem remove_spec_witness :
    KeysUnique [("X", JVal.jnull)]
    ∧ pyDictContains [("X", JVal.jnull)] "X" = true
    ∧ ((remove_assignment [("X", JVal.jnull)] "X").2 = true
      ∧ pyDictContains (remove_assignment [("X", JVal.jnull)] "X").1 "X" = false
      ∧ (remove_assignment (remove_assignment [("X", JVal.jnull)] "X").1 "X").2 = false
      ∧ ∀ k, k ≠ "X" →
          pyDictLookup (remove_assignment [("X", JVal.jnull)] "X").1 k
            = pyDictLookup [("X", JVal.jnull)] k) :=
  ⟨by simp [KeysUnique], rfl,
    remove_spec.2.2.1 [("X", JVal.jnull)] "X" (by simp [KeysUnique]) rfl⟩

/-- C9: saving a mapping of complete assignments and loading it back
yields the mapping unchanged, field for field; the timestamp text
representation is lossless (`fromisoformat ∘ isoformat` is the
identity on valid datetimes), and in source terms the deadline a stored
record carries is recovered exactly by the reader. -/
theorem save_load_roundtrip :
    (∀ m : List (String × Assignment), (m.map Prod.fst).Nodup →
      load_assignments (save_assignments (encodeMapping m)) = encodeMapping m)
    ∧ (∀ dt : DateTime, dt.Valid → fromisoformat (isoformat dt) = some dt)
    ∧ (∀ a : Assignment, a.deadline.Valid →
        extractDeadline (encodeAssignment a) = some a.deadline) := by
  refine ⟨?_, fun dt h => fromiso_iso h, ?_⟩
  · intro m hu
    show (match json_loads (json_dumps (encodeMapping m)) with
      | some v => v
      | none => JVal.jobj []) = encodeMapping m
    rw [json_loads_dumps _ (wfB_encodeMapping m hu)]
  · intro a hv
    have h : extractDeadline (encodeAssignment a) = fromisoformat (isoformat a.deadline) := rfl
    rw [h, fromiso_iso hv]

def sampleAssignment : Assignment :=
  ⟨⟨2024, 6, 3, 10, 0, 0, 0⟩, "essay draft", 3, 77, ⟨2024, 6, 1, 12, 0, 0, 123456⟩⟩

/-- C9 witness. -/
theorem save_load_roundtrip_witness :
    (([("X", sampleAssignment)].map Prod.fst).Nodup
      ∧ load_assignments (save_assignments (encodeMapping [("X", sampleAssignment)]))
          = encodeMapping [("X", sampleAssignment)])
    ∧ (DateTime.Valid ⟨2024, 6, 1, 12, 0, 0, 123456⟩
      ∧ fromisoformat (isoformat ⟨2024, 6, 1, 12, 0, 0, 123456⟩)
          = some ⟨2024, 6, 1, 12, 0, 0, 123456⟩)
    ∧ (DateTime.Valid sampleAssignment.deadline
      ∧ extractDeadline (encodeAssignment sampleAssignment)
          = some sampleAssignment.deadline) :=
  ⟨⟨by simp, save_load_roundtrip.1 [("X", sampleAssignment)] (by simp)⟩,
   ⟨by decide, save_load_roundtrip.2.1 ⟨2024, 6, 1, 12, 0, 0, 123456⟩ (by decide)⟩,
   ⟨by decide, save_load_roundtrip.2.2 sampleAssignment (by decide)⟩⟩

/-- C8: every mapping the store loads has unique keys (the parser builds
objects by dict insertion, which collapses duplicates), insertion keeps
keys unique, and running `add` twice under the same name through the
full save/load pipeline leaves exactly one entry under that name,
holding the second record. -/
theorem unique_keys_overwrite :
    (∀ (fs : FileState) (m : List (String × JVal)),
      load_assignments fs = .jobj m → KeysUnique m)
    ∧ (∀ (m : List (String × JVal)) (k : String) (v : JVal),
        KeysUnique m → KeysUnique (pyDictInsert m k v))
    ∧ (∀ (fs : FileState) (m : List (String × JVal)) (name d1 d2 : String)
        (dd1 dd2 : DateTime) (de1 de2 : Option String) (p1 p2 u1 u2 : Int)
        (t1 t2 : DateTime) (nf1 : FileState) (s1 : JVal),
      load_assignments fs = .jobj m → wfB (.jobj m) = true →
      strptime_ymd_hm d1 = some dd1 → strptime_ymd_hm d2 = some dd2 →
      add_assignment fs name d1 de1 p1 u1 t1 = .ok nf1 s1 →
      ∃ m2, add_assignment nf1 name d2 de2 p2 u2 t2
          = .ok (save_assignments (.jobj m2)) (mkRecord dd2 de2 p2 u2 t2)
        ∧ countKey m2 name = 1
        ∧ pyDictLookup m2 name = some (mkRecord dd2 de2 p2 u2 t2)) := by
  refine ⟨fun fs m h => load_assignments_unique h,
    fun m k v hu => KeysUnique_insert k v hu, ?_⟩
  intro fs m name d1 d2 dd1 dd2 de1 de2 p1 p2 u1 u2 t1 t2 nf1 s1
    hload hwf hd1 hd2 hadd
  have h1 := add_invalid_deadline_iff.2 fs m name d1 de1 p1 u1 t1 dd1 hload hd1
  rw [hadd] at h1
  rw [AddResult.ok.injEq] at h1
  obtain ⟨hnf1, -⟩ := h1
  set m1 := pyDictInsert m name (mkRecord dd1 de1 p1 u1 t1) with hm1
  have hwf1 : wfB (.jobj m1) = true := wfB_jobj_insert hwf (wfB_mkRecord _ _ _ _ _)
  have hload1 : load_assignments nf1 = .jobj m1 := by
    rw [hnf1]
    show (match json_loads (json_dumps (.jobj m1)) with
      | some v => v
      | none => JVal.jobj []) = JVal.jobj m1
    rw [json_loads_dumps _ hwf1]
  have hu1 : KeysUnique m1 :=
    KeysUnique_insert name _ (load_assignments_unique hload)
  refine ⟨pyDictInsert m1 name (mkRecord dd2 de2 p2 u2 t2), ?_, ?_, ?_⟩
  · exact add_invalid_deadline_iff.2 nf1 m1 name d2 de2 p2 u2 t2 dd2 hload1 hd2
  · exact countKey_insert_unique name _ hu1
  · exact pyDictLookup_insert m1 name _

/-- C8 witness. -/
theorem unique_keys_overwrite_witness :
    (load_assignments .absent = JVal.jobj ([] : List (String × JVal))
      ∧ wfB (.jobj ([] : List (String × JVal))) = true
      ∧ strptime_ymd_hm "2024-06-03 10:00" = some ⟨2024, 6, 3, 10, 0, 0, 0⟩
      ∧ strptime_ymd_hm "2024-06-04 11:30" = some ⟨2024, 6, 4, 11, 30, 0, 0⟩)
    ∧ (∃ m2, add_assignment
          (save_assignments (.jobj (pyDictInsert [] "X"
            (mkRecord ⟨2024, 6, 3, 10, 0, 0, 0⟩ none 3 77 ⟨2024, 6, 1, 12, 0, 0, 0⟩))))
          "X" "2024-06-04 11:30" none 5 78 ⟨2024, 6, 2, 9, 0, 0, 0⟩
          = .ok (save_assignments (.jobj m2))
              (mkRecord ⟨2024, 6, 4, 11, 30, 0, 0⟩ none 5 78 ⟨2024, 6, 2, 9, 0, 0, 0⟩)
        ∧ countKey m2 "X" = 1
        ∧ pyDictLookup m2 "X"
            = some (mkRecord ⟨2024, 6, 4, 11, 30, 0, 0⟩ none 5 78 ⟨2024, 6, 2, 9, 0, 0, 0⟩)) :=
  ⟨⟨rfl, by rw [wfB, wfObjB]; rfl, by decide, by decide⟩,
    unique_keys_overwrite.2.2 .absent [] "X" "2024-06-03 10:00" "2024-06-04 11:30"
      ⟨2024, 6, 3, 10, 0, 0, 0⟩ ⟨2024, 6, 4, 11, 30, 0, 0⟩ none none 3 5 77 78
      ⟨2024, 6, 1, 12, 0, 0, 0⟩ ⟨2024, 6, 2, 9, 0, 0, 0⟩
      (save_assignments (.jobj (pyDictInsert [] "X"
        (mkRecord ⟨2024, 6, 3, 10, 0, 0, 0⟩ none 3 77 ⟨2024, 6, 1, 12, 0, 0, 0⟩))))
      (mkRecord ⟨2024, 6, 3, 10, 0, 0, 0⟩ none 3 77 ⟨2024, 6, 1, 12, 0, 0, 0⟩)
      rfl (by rw [wfB, wfObjB]; rfl) (by decide) (by decide) rfl⟩

theorem pySliceTo_nil {α : Type} (stop : Int) : pySliceTo ([] : List α) stop = [] := by
  rw [pySliceTo]
  split <;> exact List.take_nil

/-- C4: partitioning places an entry in `upcoming` exactly when its
deadline is at or after `now` and in `past` exactly otherwise, both
partitions come out sorted ascending by deadline, and the handler's
displayed list is the concatenation `upcoming ++ (past if show_all)`
truncated by the `[:limit]` slice. -/
theorem partition_sort_render_correct :
    (∀ (entries : List Entry) (now : DateTime) (x : Entry),
      (x ∈ (partitionAndSort entries now).1
        ↔ x ∈ entries ∧ now.toMicro ≤ x.2.2.toMicro)
      ∧ (x ∈ (partitionAndSort entries now).2
        ↔ x ∈ entries ∧ x.2.2.toMicro < now.toMicro))
    ∧ (∀ (entries : List Entry) (now : DateTime),
        List.Sorted deadlineLE (partitionAndSort entries now).1
        ∧ List.Sorted deadlineLE (partitionAndSort entries now).2)
    ∧ (∀ (fs : FileState) (m : List (String × JVal)) (now : DateTime)
        (show_all : Bool) (limit : Int) (entries : List Entry),
        load_assignments fs = .jobj m →
        m.mapM (fun kv => (extractDeadline kv.2).map (fun d => (kv.1, kv.2, d)))
          = some entries →
        list_assignments fs now show_all limit
          = some (renderList (partitionAndSort entries now).1
              (partitionAndSort entries now).2 show_all limit)) := by
  refine ⟨?_, ?_, ?_⟩
  · intro entries now x
    constructor
    · rw [partitionAndSort]
      simp only [sortByDeadline, List.mem_insertionSort, List.mem_filter,
        decide_eq_true_eq]
    · rw [partitionAndSort]
      simp only [sortByDeadline, List.mem_insertionSort, List.mem_filter,
        decide_eq_true_eq]
  · intro entries now
    rw [partitionAndSort]
    exact ⟨List.sorted_insertionSort deadlineLE _, List.sorted_insertionSort deadlineLE _⟩
  · intro fs m now show_all limit entries hload hmap
    rw [list_assignments, hload]
    by_cases hfal : pyFalsy (.jobj m) = true
    · rw [if_pos hfal]
      have hm : m = [] := by
        rw [pyFalsy] at hfal
        exact List.isEmpty_iff.mp hfal
      subst hm
      rw [List.mapM_nil] at hmap
      cases hmap
      have h1 : partitionAndSort ([] : List Entry) now = ([], []) := rfl
      rw [renderList, h1]
      cases show_all <;> simp [pySliceTo_nil]
    · rw [if_neg hfal]
      show (match m.mapM (fun kv => (extractDeadline kv.2).map (fun d => (kv.1, kv.2, d))) with
        | none => none
        | some entries =>
          let p := partitionAndSort entries now
          let toShow := p.1 ++ (if show_all then p.2 else [])
          if toShow.isEmpty then some [] else some (pySliceTo toShow limit)) = _
      rw [hmap]
      show (if ((partitionAndSort entries now).1
            ++ (if show_all then (partitionAndSort entries now).2 else [])).isEmpty
          then some []
          else some (pySliceTo ((partitionAndSort entries now).1
            ++ (if show_all then (partitionAndSort entries now).2 else [])) limit))
        = some (renderList (partitionAndSort entries now).1
            (partitionAndSort entries now).2 show_all limit)
      rw [renderList]
      by_cases hemp : ((partitionAndSort entries now).1
          ++ (if show_all then (partitionAndSort entries now).2 else [])).isEmpty = true
      · rw [show ((partitionAndSort entries now).1
            ++ (if show_all then (partitionAndSort entries now).2 else []))
            = [] from List.isEmpty_iff.mp hemp]
        simp [pySliceTo_nil]
      · rw [if_neg hemp]

def listSampleFile : FileState :=
  .present "\x7b\"X\": \x7b\"deadline\": \"2020-01-01T00:00:00\"\x7d, \"Y\": \x7b\"deadline\": \"2099-01-01T00:00:00\"\x7d\x7d"

def listSampleMap : List (String × JVal) :=
  [("X", .jobj [("deadline", .jstr "2020-01-01T00:00:00")]),
   ("Y", .jobj [("deadline", .jstr "2099-01-01T00:00:00")])]

def listSampleNow : DateTime := ⟨2024, 1, 1, 0, 0, 0, 0⟩

def listSampleEntries : List Entry :=
  [("X", .jobj [("deadline", .jstr "2020-01-01T00:00:00")], ⟨2020, 1, 1, 0, 0, 0, 0⟩),
   ("Y", .jobj [("deadline", .jstr "2099-01-01T00:00:00")], ⟨2099, 1, 1, 0, 0, 0, 0⟩)]

theorem partition_sort_render_correct_witness :
    load_assignments listSampleFile = JVal.jobj listSampleMap
    ∧ listSampleMap.mapM
        (fun kv => (extractDeadline kv.2).map (fun d => (kv.1, kv.2, d)))
        = some listSampleEntries
    ∧ list_assignments listSampleFile listSampleNow true 10
        = some (renderList (partitionAndSort listSampleEntries listSampleNow).1
            (partitionAndSort listSampleEntries listSampleNow).2 true 10) :=
  ⟨rfl, rfl,
    partition_sort_render_correct.2.2 listSampleFile listSampleMap listSampleNow
      true 10 listSampleEntries rfl rfl⟩

end MsuBot
